import Mathlib

/-!
Verification of the AtomCrypte encryption pipeline (`src/lib.rs`).

The development shallowly embeds the Rust source into Lean.  Bytes are
modelled as `Nat` values below 256 (wrapping arithmetic is written with
explicit `% 256`), byte buffers as `List Nat`, and fallible Rust code as
values of the `Outcome` type, whose `crashed` constructor models a Rust
panic.  The external cryptographic primitives (blake3, SHA3-512, Argon2,
base64 salt encoding) come from vendor crates, not from this repository;
they are abstracted as a `Prims` record of deterministic functions, and
theorems that need their documented output shapes (32- and 64-byte
digests) take a `PrimsWF` hypothesis.  Thread-pool construction
(`rayon::ThreadPoolBuilder`) is an environment resource whose failure is
environmental, so pool construction is modelled as always succeeding.
-/

set_option maxRecDepth 100000

/-- Predicate stating every entry of a buffer is a byte value. -/
def Bytes (l : List Nat) : Prop := ∀ b ∈ l, b < 256

/-- Rotate an 8-bit value left; mirrors `u8::rotate_left`, which reduces the
shift amount modulo 8. -/
def rotl8 (b r : Nat) : Nat :=
  let s := r % 8
  (((b % 256) <<< s) ||| ((b % 256) >>> (8 - s))) % 256

/-- Rotate an 8-bit value right; mirrors `u8::rotate_right`. -/
def rotr8 (b r : Nat) : Nat :=
  let s := r % 8
  (((b % 256) >>> s) ||| ((b % 256) <<< (8 - s))) % 256

/-- Wrapping byte addition, `u8::wrapping_add`. -/
def wadd (a b : Nat) : Nat := (a + b) % 256

/-- Wrapping byte subtraction, `u8::wrapping_sub`. -/
def wsub (a b : Nat) : Nat := (a % 256 + 256 - b % 256) % 256

/-- The error taxonomy of `enum Errors` in the source. -/
inductive Errors where
  | InvalidNonce (msg : String)
  | InvalidMac (msg : String)
  | InvalidXor (msg : String)
  | ThreadPool (msg : String)
  | Argon2Failed (msg : String)
  | InvalidAlgorithm
  | KernelError (msg : String)
  | BuildFailed (msg : String)
deriving DecidableEq, Repr

/-- The `thiserror` display strings of `Errors`, used by the
`map_err(|e| Errors::InvalidXor(e.to_string()))` calls in the round loops. -/
def errDisplay : Errors → String
  | .InvalidNonce s => "Decryption failed: " ++ s
  | .InvalidMac s => "Invalid MAC: " ++ s
  | .InvalidXor s => "XOR failed: " ++ s
  | .ThreadPool s => "Thread Pool Failed: " ++ s
  | .Argon2Failed s => "Argon2 failed: " ++ s
  | .InvalidAlgorithm => "Invalid Algorithm"
  | .KernelError s => "Kernel Error: " ++ s
  | .BuildFailed s => "Build Failed: " ++ s

/-- Result of running a fallible Rust function: a normal `Result` value, or
`crashed` when the Rust code would panic (for example an out-of-range
`split_at` after a `usize` underflow). -/
inductive Outcome (α : Type) where
  | crashed
  | error (e : Errors)
  | ok (a : α)
deriving DecidableEq, Repr

/-- Sequencing of Rust `?`-style error propagation. -/
def Outcome.bind {α β : Type} : Outcome α → (α → Outcome β) → Outcome β
  | .crashed, _ => .crashed
  | .error e, _ => .error e
  | .ok a, f => f a

/-- The `DeviceList` enum. -/
inductive DeviceList where
  | Auto
  | Cpu
  | Gpu
deriving DecidableEq, Repr

/-- The `SboxTypes` enum. -/
inductive SboxTypes where
  | PasswordBased
  | NonceBased
  | PasswordAndNonceBased
deriving DecidableEq, Repr

/-- The `IrreduciblePoly` enum. -/
inductive IrreduciblePoly where
  | AES
  | Custom (val : Nat)
deriving DecidableEq, Repr

/-- `IrreduciblePoly::value`. -/
def IrreduciblePoly.value : IrreduciblePoly → Nat
  | .AES => 0x1b
  | .Custom v => v

/-- The `Config` struct. -/
structure Config where
  rounds : Nat
  device : DeviceList
  sbox : SboxTypes
  threadNum : Nat
  gfPoly : IrreduciblePoly
deriving DecidableEq, Repr

/-- The `Config::rounds` builder method (named `roundsClamp` here because the
field is already called `rounds`): values below 1 are clamped to 1. -/
def Config.roundsClamp (c : Config) (num : Nat) : Config :=
  if num < 1 then { c with rounds := 1 } else { c with rounds := num }

/-- `Config::default()` with the thread count left symbolic as 1. -/
def Config.defaultCfg : Config :=
  { rounds := 3, device := .Cpu, sbox := .PasswordAndNonceBased,
    threadNum := 1, gfPoly := .AES }

/-- The `NonceData` enum; each variant carries the raw 32 bytes. -/
inductive NonceData where
  | tagged (b : List Nat)
  | hashed (b : List Nat)
  | nonce (b : List Nat)
  | machine (b : List Nat)
deriving DecidableEq, Repr

/-- `NonceData::as_bytes`. -/
def NonceData.asBytes : NonceData → List Nat
  | .tagged b => b
  | .hashed b => b
  | .nonce b => b
  | .machine b => b

/-- The `Salt` enum. -/
inductive Salt where
  | salt (b : List Nat)
deriving DecidableEq, Repr

/-- `Salt::as_bytes`. -/
def Salt.asBytes : Salt → List Nat
  | .salt b => b

/-- External cryptographic primitives used by the pipeline.  These live in
vendor crates (blake3, sha3, argon2, password-hash), not in this repository,
so they are abstracted as deterministic functions. -/
structure Prims where
  blake3 : List Nat → List Nat
  blake3Keyed : List Nat → List Nat → List Nat
  deriveKey : List Nat → List Nat → List Nat
  argon2 : List Nat → List Nat → List Nat
  sha3 : List Nat → List Nat
  b64 : List Nat → List Nat

/-- Documented output shapes of the external primitives: blake3 and its
keyed/derive variants produce 32-byte digests, Argon2 is asked for a 32-byte
key, SHA3-512 produces 64 bytes. -/
structure PrimsWF (P : Prims) : Prop where
  blake3_len : ∀ x, (P.blake3 x).length = 32
  blake3_lt : ∀ x, Bytes (P.blake3 x)
  deriveKey_len : ∀ x y, (P.deriveKey x y).length = 32
  deriveKey_lt : ∀ x y, Bytes (P.deriveKey x y)
  argon2_len : ∀ x y, (P.argon2 x y).length = 32
  argon2_lt : ∀ x y, Bytes (P.argon2 x y)
  sha3_len : ∀ x, (P.sha3 x).length = 64

/-- A concrete primitive assignment used to instantiate witnesses. -/
def trivPrims : Prims where
  blake3 := fun _ => List.replicate 32 0
  blake3Keyed := fun _ _ => List.replicate 32 0
  deriveKey := fun _ _ => List.replicate 32 0
  argon2 := fun _ _ => List.replicate 32 0
  sha3 := fun _ => List.replicate 64 0
  b64 := fun l => l

/-- ASCII bytes of the `VERSION` constant `b"atom-version:0x3"`. -/
def VERSIONbytes : List Nat :=
  [97, 116, 111, 109, 45, 118, 101, 114, 115, 105, 111, 110, 58, 48, 120, 51]

/-- ASCII bytes of the legacy tag `b"atom-version:0x2"`. -/
def VERSION2bytes : List Nat :=
  [97, 116, 111, 109, 45, 118, 101, 114, 115, 105, 111, 110, 58, 48, 120, 50]

/-- ASCII bytes of the prefix `b"atom-version"`. -/
def atomVersionPrefixBytes : List Nat :=
  [97, 116, 111, 109, 45, 118, 101, 114, 115, 105, 111, 110]

/-- ASCII bytes of `b"atom-crypte-password"`. -/
def atomCryptePasswordBytes : List Nat :=
  [97, 116, 111, 109, 45, 99, 114, 121, 112, 116, 101, 45, 112, 97, 115,
   115, 119, 111, 114, 100]

/-- Boolean `starts_with`: does the second list begin with the first? -/
def hasPrefixB : List Nat → List Nat → Bool
  | [], _ => true
  | _ :: _, [] => false
  | a :: as, b :: bs => a == b && hasPrefixB as bs

/-- Map over a list together with the element index, starting at `i`;
models the `iter().enumerate().map(...)` pattern. -/
def mapIdxFrom {α β : Type} (f : Nat → α → β) : Nat → List α → List β
  | _, [] => []
  | i, a :: as => f i a :: mapIdxFrom f (i + 1) as

/-- One step of the peasant-multiplication loop of `GaloisField::multiply`.
The accumulator `p` is a `u8`, `a` a `u16`; the loop runs while both `a` and
`b` are nonzero.  `fuel` bounds the iteration count: since `b` halves each
step, `b + 1` fuel never runs out on the loop's real domain. -/
def gfMulGo (poly : Nat) : Nat → Nat → Nat → Nat → Nat
  | 0, p, _, _ => p
  | fuel + 1, p, a, b =>
    if a = 0 ∨ b = 0 then p
    else
      let p' := if b % 2 = 1 then p ^^^ (a % 256) else p
      let high := a &&& 0x80
      let a' := (a * 2) % 65536
      let a'' := if high ≠ 0 then a' ^^^ poly else a'
      gfMulGo poly fuel p' a'' (b / 2)

/-- `GaloisField::multiply` (and therefore every `mul_table` entry):
carry-less multiplication of two bytes reduced with the construction
polynomial `poly` (bit 8 implicit). -/
def gfMul (poly a b : Nat) : Nat := gfMulGo poly (b % 256 + 1) 0 (a % 256) (b % 256)

/-- The `inv_table` entry for `a`: `initialize_tables` scans `j = 1..256` in
ascending order and overwrites `inv_table[a]` whenever `mul_table[a][j] = 1`,
so the entry is the last such `j`, and stays 0 when none exists. -/
def invTable (poly a : Nat) : Nat :=
  (List.range 256).foldl
    (fun acc j => if 1 ≤ j ∧ gfMul poly a j = 1 then j else acc) 0

/-- `GaloisField::inverse`: `None` for 0, otherwise the table entry. -/
def gfInverse (poly a : Nat) : Option Nat :=
  if a = 0 then none else some (invTable poly a)

/-- Reference recurrence for the peasant loop, convenient for proofs (not
used by the executable pipeline): the per-step update of `a` in the loop. -/
def shiftA (poly a : Nat) : Nat :=
  if a &&& 0x80 ≠ 0 then ((a * 2) % 65536) ^^^ poly else (a * 2) % 65536

/-- Reference recurrence equal to `gfMul` on bytes (proved below):
a well-founded restatement of the peasant loop. -/
def mulSpec (poly : Nat) (a b : Nat) : Nat :=
  if a = 0 ∨ b = 0 then 0
  else (if b % 2 = 1 then a % 256 else 0) ^^^ mulSpec poly (shiftA poly a) (b / 2)
termination_by b
decreasing_by
  rename_i h
  simp only [not_or] at h
  omega

/-- The per-3-chunk body of `triangle_mix_columns`. -/
def triChunk (poly a b c : Nat) : List Nat :=
  [gfMul poly 3 a ^^^ gfMul poly 2 b ^^^ c,
   gfMul poly 4 b ^^^ c,
   gfMul poly 5 c]

/-- Pure core of `triangle_mix_columns`: `par_chunks_exact_mut(3)` rewrites
every complete 3-byte group in place and leaves the trailing remainder
untouched. -/
def triangleMixColumnsPure (poly : Nat) : List Nat → List Nat
  | a :: b :: c :: rest => triChunk poly a b c ++ triangleMixColumnsPure poly rest
  | rest => rest

/-- The per-3-chunk body of `inverse_triangle_mix_columns`, with the
`inverse(x).unwrap_or(1)` fallback of the source. -/
def invTriChunk (poly a b c : Nat) : List Nat :=
  let inv5 := (gfInverse poly 5).getD 1
  let cPrime := gfMul poly inv5 c
  let inv4 := (gfInverse poly 4).getD 1
  let bPrime := gfMul poly inv4 (b ^^^ gfMul poly 1 cPrime)
  let inv3 := (gfInverse poly 3).getD 1
  let aPrime := gfMul poly inv3 (a ^^^ gfMul poly 2 bPrime ^^^ cPrime)
  [aPrime, bPrime, cPrime]

/-- Pure core of `inverse_triangle_mix_columns`. -/
def inverseTriangleMixColumnsPure (poly : Nat) : List Nat → List Nat
  | a :: b :: c :: rest => invTriChunk poly a b c ++ inverseTriangleMixColumnsPure poly rest
  | rest => rest

/-- `triangle_mix_columns` with its `Result` signature; the only error source
in the Rust function is thread-pool construction, modelled as succeeding. -/
def triangleMixColumns (data : List Nat) (poly : Nat) (_cfg : Config) :
    Outcome (List Nat) :=
  .ok (triangleMixColumnsPure poly data)

/-- `inverse_triangle_mix_columns` with its `Result` signature. -/
def inverseTriangleMixColumns (data : List Nat) (poly : Nat) (_cfg : Config) :
    Outcome (List Nat) :=
  .ok (inverseTriangleMixColumnsPure poly data)

/-- The per-byte body of `xor_encrypt` at index `i`: XOR with
`nonce[i] ^ pwd[i]`, rotate left by `nonce[i] ^ (pwd[i] % 8)` (the source
expression `nonce ^ pwd % 8` binds the `% 8` to `pwd`), then wrapping-add the
password byte and the nonce byte. -/
def encByte (n p b : Nat) : Nat :=
  wadd (wadd (rotl8 (b ^^^ (n ^^^ p)) (n ^^^ (p % 8))) p) n

/-- The per-byte body of `xor_decrypt`: wrapping-subtract the nonce byte and
the password byte, rotate right by the same amount, then XOR. -/
def decByte (n p b : Nat) : Nat :=
  rotr8 (wsub (wsub b n) p) (n ^^^ (p % 8)) ^^^ (n ^^^ p)

/-- Pure byte map of `xor_encrypt`. -/
def xorEncryptBytes (nonce pwd input : List Nat) : List Nat :=
  mapIdxFrom
    (fun i b => encByte (nonce.getD (i % nonce.length) 0) (pwd.getD (i % pwd.length) 0) b)
    0 input

/-- Pure byte map of `xor_decrypt`. -/
def xorDecryptBytes (nonce pwd input : List Nat) : List Nat :=
  mapIdxFrom
    (fun i b => decByte (nonce.getD (i % nonce.length) 0) (pwd.getD (i % pwd.length) 0) b)
    0 input

/-- `xor_encrypt`: the enumerated byte map, failing with `InvalidXor` when the
output (equivalently the input) is empty. -/
def xorEncrypt (nonce pwd input : List Nat) : Outcome (List Nat) :=
  let out := xorEncryptBytes nonce pwd input
  if out.isEmpty then .error (.InvalidXor "Empty vector") else .ok out

/-- `xor_decrypt`. -/
def xorDecrypt (nonce pwd input : List Nat) : Outcome (List Nat) :=
  let out := xorDecryptBytes nonce pwd input
  if out.isEmpty then .error (.InvalidXor "Empty vector") else .ok out

/-- The per-byte body of `mix_blocks` with the derived hash byte `t`. -/
def mixByte (t b : Nat) : Nat :=
  wadd (rotr8 (wadd b t) (t % 8) ^^^ t) t

/-- The per-byte body of `unmix_blocks`. -/
def unmixByte (t b : Nat) : Nat :=
  wsub (rotl8 (wsub b t ^^^ t) (t % 8)) t

/-- Pure core of `mix_blocks`. -/
def mixBlocksPure (P : Prims) (data nonce pwd : List Nat) : List Nat :=
  let n := P.blake3 (nonce ++ pwd)
  if data.length = 3 then data
  else mapIdxFrom (fun i b => mixByte (n.getD (i % n.length) 0) b) 0 data

/-- Pure core of `unmix_blocks`. -/
def unmixBlocksPure (P : Prims) (data nonce pwd : List Nat) : List Nat :=
  let n := P.blake3 (nonce ++ pwd)
  if data.length = 3 then data
  else mapIdxFrom (fun i b => unmixByte (n.getD (i % n.length) 0) b) 0 data

/-- `mix_blocks`: hash `nonce || pwd` into the mixing key; buffers of length
exactly 3 are returned unchanged (the source's constant-time length == 3
short-circuit); otherwise apply `mixByte` index-wise.  The only error source
in the Rust function is thread-pool construction, modelled as succeeding. -/
def mixBlocks (P : Prims) (data nonce pwd : List Nat) (_cfg : Config) :
    Outcome (List Nat) :=
  .ok (mixBlocksPure P data nonce pwd)

/-- `unmix_blocks`. -/
def unmixBlocks (P : Prims) (data nonce pwd : List Nat) (_cfg : Config) :
    Outcome (List Nat) :=
  .ok (unmixBlocksPure P data nonce pwd)

/-- Swap two positions of a list, `Vec::swap`. -/
def listSwap (l : List Nat) (i j : Nat) : List Nat :=
  (l.set i (l.getD j 0)).set j (l.getD i 0)

/-- `generate_dynamic_sbox`: start from the identity table and run the seeded
Fisher-Yates walk for `i` from 255 down to 1. -/
def generateDynamicSbox (P : Prims) (nonce key : List Nat) (cfg : Config) :
    List Nat :=
  let seed : List Nat :=
    match cfg.sbox with
    | .PasswordBased => P.blake3 key
    | .NonceBased => P.blake3 nonce
    | .PasswordAndNonceBased => P.blake3 (nonce ++ key)
  (List.range 255).foldl
    (fun sbox k =>
      let i := 255 - k
      let index := (seed.getD (i % seed.length) 0 + seed.getD ((i * 7) % seed.length) 0) % (i + 1)
      listSwap sbox i index)
    (List.range 256)

/-- Accumulator loop of `generate_inv_s_box`: `inv_s_box[s_box[i]] = i`. -/
def genInvGo : Nat → List Nat → List Nat → List Nat
  | _, inv, [] => inv
  | i, inv, v :: rest => genInvGo (i + 1) (inv.set v i) rest

/-- `generate_inv_s_box`. -/
def generateInvSBox (sbox : List Nat) : List Nat :=
  genInvGo 0 (List.replicate 256 0) sbox

/-- Pure core of `s_bytes`. -/
def sBytesPure (data sbox : List Nat) : List Nat :=
  data.map fun b => sbox.getD b 0

/-- `s_bytes`: apply the S-box to every byte (pool modelled as succeeding). -/
def sBytes (data sbox : List Nat) (_cfg : Config) : Outcome (List Nat) :=
  .ok (sBytesPure data sbox)

/-- Pure core of `in_s_bytes`. -/
def inSBytesPure (P : Prims) (data nonce pwd : List Nat) (cfg : Config) :
    List Nat :=
  let sbox := generateDynamicSbox P nonce pwd cfg
  let invSbox := generateInvSBox sbox
  data.map fun b => invSbox.getD b 0

/-- `in_s_bytes`: regenerate the S-box, invert it, and apply the inverse. -/
def inSBytes (P : Prims) (data nonce pwd : List Nat) (cfg : Config) :
    Outcome (List Nat) :=
  .ok (inSBytesPure P data nonce pwd cfg)

/-- `dynamic_sizes`: the base chunk width as a step function of the buffer
length.  The source marks lengths of at least `10^19` (beyond any real
buffer) `unreachable!`; the model totalises that branch with the last value. -/
def dynamicSizes (n : Nat) : Nat :=
  if n < 1000 then 14
  else if n < 10000 then 24
  else if n < 100000 then 64
  else if n < 1000000 then 128
  else if n < 10000000 then 4096
  else if n < 100000000 then 8096
  else if n < 1000000000 then 16384
  else if n < 10000000000 then 16384
  else if n < 100000000000 then 32768
  else if n < 1000000000000 then 32768
  else if n < 10000000000000 then 65536
  else if n < 100000000000000 then 65536
  else if n < 1000000000000000 then 1048576
  else if n < 10000000000000000 then 1048576
  else if n < 100000000000000000 then 2097152
  else if n < 1000000000000000000 then 2097152
  else if n < 10000000000000000000 then 4194304
  else 4194304

/-- Cursor walk of `get_chunk_sizes`: at position `pos` the candidate size is
`dataSize + (seed[pos % 32] % 8)`; the pushed size is clipped to the
remaining length while the cursor advances by the unclipped size.  `fuel`
bounds the iterations; since every candidate size is positive on the real
domain, `dataLen` fuel is always enough. -/
def getChunkSizesGo (seed : List Nat) (dataLen dataSize : Nat) :
    Nat → Nat → List Nat
  | 0, _ => []
  | fuel + 1, pos =>
    if pos < dataLen then
      let size := dataSize + (seed.getD (pos % seed.length) 0 % 8)
      min size (dataLen - pos) :: getChunkSizesGo seed dataLen dataSize fuel (pos + size)
    else []

/-- `get_chunk_sizes`. -/
def getChunkSizes (P : Prims) (dataLen : Nat) (nonce key : List Nat) :
    List Nat :=
  let seed := P.blake3 (nonce ++ key)
  getChunkSizesGo seed dataLen (dynamicSizes dataLen) dataLen 0

/-- The per-byte body of the shift pass on chunk `i`. -/
def shiftByte (rot x b : Nat) : Nat := rotl8 b rot ^^^ x

/-- The per-byte body of the unshift pass on chunk `i`. -/
def unshiftByte (rot x b : Nat) : Nat := rotr8 (b ^^^ x) rot

/-- Walk the chunk schedule over the buffer, applying the rotate-then-XOR
shift to chunk `i` keyed by `nonce[i % 32]` and `key[i % 32]`. -/
def shiftChunksGo (nonce key : List Nat) : Nat → List Nat → List Nat → List Nat
  | _, [], _ => []
  | i, s :: sizes, buf =>
    let rotateBy := nonce.getD (i % nonce.length) 0 % 8
    let xorVal := key.getD (i % key.length) 0
    (buf.take s).map (shiftByte rotateBy xorVal) ++
      shiftChunksGo nonce key (i + 1) sizes (buf.drop s)

/-- Walk the chunk schedule applying the XOR-then-rotate-right inverse. -/
def unshiftChunksGo (nonce key : List Nat) : Nat → List Nat → List Nat → List Nat
  | _, [], _ => []
  | i, s :: sizes, buf =>
    let rotateBy := nonce.getD (i % nonce.length) 0 % 8
    let xorVal := key.getD (i % key.length) 0
    (buf.take s).map (unshiftByte rotateBy xorVal) ++
      unshiftChunksGo nonce key (i + 1) sizes (buf.drop s)

/-- Pure core of `dynamic_shift`. -/
def dynamicShiftPure (P : Prims) (data nonce password : List Nat) : List Nat :=
  let key := P.blake3 (nonce ++ password)
  let chunkSizes := getChunkSizes P data.length nonce key
  (shiftChunksGo nonce key 0 chunkSizes data).reverse

/-- Pure core of `dynamic_unshift`. -/
def dynamicUnshiftPure (P : Prims) (data nonce password : List Nat) : List Nat :=
  let rev := data.reverse
  let key := P.blake3 (nonce ++ password)
  let chunkSizes := getChunkSizes P rev.length nonce key
  unshiftChunksGo nonce key 0 chunkSizes rev

/-- `dynamic_shift`: derive the chunk key, compute the schedule, transform
each chunk in order, concatenate, and reverse the whole byte sequence.  The
schedule's slices are in bounds by the chunk-schedule invariant (proved
below), so they are modelled by `take`/`drop`. -/
def dynamicShift (P : Prims) (data nonce password : List Nat) (_cfg : Config) :
    Outcome (List Nat) :=
  .ok (dynamicShiftPure P data nonce password)

/-- `dynamic_unshift`: reverse first, recompute the schedule on the reversed
buffer's (equal) length, and invert each chunk. -/
def dynamicUnshift (P : Prims) (data nonce password : List Nat) (_cfg : Config) :
    Outcome (List Nat) :=
  .ok (dynamicUnshiftPure P data nonce password)

/-- Modelled from the spec: the OpenCL backend (`src/gpu.rs`) is not under
`src/`; section 4.5 of the spec requires the GPU path to produce
byte-identical output to the CPU path, so it is modelled as the CPU shift. -/
def dynamicShiftGpu (P : Prims) (data nonce password : List Nat) :
    Outcome (List Nat) :=
  dynamicShift P data nonce password Config.defaultCfg

/-- Modelled from the spec: GPU unshift, byte-identical to the CPU path. -/
def dynamicUnshiftGpu (P : Prims) (data nonce password : List Nat) :
    Outcome (List Nat) :=
  dynamicUnshift P data nonce password Config.defaultCfg

/-- `auto_dynamic_chunk_shift`: device dispatch.  The `Auto` probe for an
OpenCL platform is environmental; the model takes the CPU fallback. -/
def autoDynamicChunkShift (P : Prims) (data nonce password : List Nat)
    (cfg : Config) : Outcome (List Nat) :=
  match cfg.device with
  | .Cpu => dynamicShift P data nonce password cfg
  | .Gpu => dynamicShiftGpu P data nonce password
  | .Auto => dynamicShift P data nonce password cfg

/-- `auto_dynamic_chunk_unshift`. -/
def autoDynamicChunkUnshift (P : Prims) (data nonce password : List Nat)
    (cfg : Config) : Outcome (List Nat) :=
  match cfg.device with
  | .Cpu => dynamicUnshift P data nonce password cfg
  | .Gpu => dynamicUnshiftGpu P data nonce password
  | .Auto => dynamicUnshift P data nonce password cfg

/-- `derive_password_key`: reject non-32-byte inputs, base64-encode the salt
(the custom salt when present, else the nonce), and run Argon2. -/
def derivePasswordKey (P : Prims) (pwd salt : List Nat)
    (customSalt : Option Salt) : Outcome (List Nat) :=
  if pwd.length = 32 then
    let saltStr :=
      match customSalt with
      | some cs => P.b64 cs.asBytes
      | none => P.b64 salt
    .ok (P.argon2 pwd saltStr)
  else .error (.Argon2Failed "Invalid Password")

/-- `verify_keys_constant_time`: length check then constant-time equality;
the model returns plain list equality. -/
def verifyKeysConstantTime (key1 key2 : List Nat) : Bool :=
  if key1.length = key2.length then key1 == key2 else false

/-- Transform an error through `map_err(|e| Errors::InvalidXor(e.to_string()))`. -/
def mapErrInvalidXor {α : Type} : Outcome α → Outcome α
  | .error e => .error (.InvalidXor (errDisplay e))
  | o => o

/-- Collect a list of fallible results, propagating the first failure;
models `collect::<Result<Vec<_>, _>>()`. -/
def outcomeMapList {α β : Type} (f : α → Outcome β) : List α → Outcome (List β)
  | [] => .ok []
  | a :: as =>
    (f a).bind fun b => (outcomeMapList f as).bind fun bs => .ok (b :: bs)

/-- Partition a list into consecutive chunks of width `s`, as
`par_chunks(s)`.  `fuel` bounds recursion; `l.length` fuel is always enough
when `s` is positive (it always is: `dynamic_sizes` is at least 14). -/
def chunkListGo (s : Nat) : Nat → List Nat → List (List Nat)
  | _, [] => []
  | 0, l => [l]
  | fuel + 1, l => l.take s :: chunkListGo s fuel (l.drop s)

/-- Chunks of width `s` of a list. -/
def chunkList (s : Nat) (l : List Nat) : List (List Nat) :=
  chunkListGo s l.length l

/-- One keyed-XOR pass of the encrypt round loop at round index `i`: chunk
the buffer by `dynamic_sizes` of its length, `xor_encrypt` every chunk with
the round key `blake3(pwd[0 .. min(i*8, |pwd|)])`, and concatenate. -/
def encryptPass (P : Prims) (pwd nonceB : List Nat) (i : Nat)
    (roundData : List Nat) : Outcome (List Nat) :=
  let key := P.blake3 (pwd.take (min (i * 8) pwd.length))
  (outcomeMapList (fun c => mapErrInvalidXor (xorEncrypt nonceB key c))
      (chunkList (dynamicSizes roundData.length) roundData)).bind
    fun chunks => .ok chunks.flatten

/-- One keyed-XOR pass of the decrypt round loop at round index `i`. -/
def decryptPass (P : Prims) (pwd nonceB : List Nat) (i : Nat)
    (roundData : List Nat) : Outcome (List Nat) :=
  let key := P.blake3 (pwd.take (min (i * 8) pwd.length))
  (outcomeMapList (fun c => mapErrInvalidXor (xorDecrypt nonceB key c))
      (chunkList (dynamicSizes roundData.length) roundData)).bind
    fun chunks => .ok chunks.flatten

/-- The encrypt round loop `for i in 0..=rounds`: apply the pass for each
`i` in ascending order, returning the last pass's output.  `fuel` counts the
remaining passes (`rounds + 1` at the start). -/
def encryptRoundsGo (P : Prims) (pwd nonceB : List Nat) :
    Nat → Nat → List Nat → Outcome (List Nat)
  | 0, _, d => .ok d
  | fuel + 1, i, d =>
    (encryptPass P pwd nonceB i d).bind fun d2 =>
      encryptRoundsGo P pwd nonceB fuel (i + 1) d2

/-- The `rounds + 1` ascending keyed-XOR passes of `encrypt`. -/
def encryptRounds (P : Prims) (pwd nonceB : List Nat) (rounds : Nat)
    (data : List Nat) : Outcome (List Nat) :=
  encryptRoundsGo P pwd nonceB (rounds + 1) 0 data

/-- The decrypt round loop `for i in (0..=rounds).rev()`. -/
def decryptRoundsGo (P : Prims) (pwd nonceB : List Nat) :
    Nat → Nat → List Nat → Outcome (List Nat)
  | 0, _, d => .ok d
  | fuel + 1, i, d =>
    (decryptPass P pwd nonceB i d).bind fun d2 =>
      decryptRoundsGo P pwd nonceB fuel (i - 1) d2

/-- The `rounds + 1` descending keyed-XOR passes of `decrypt`. -/
def decryptRounds (P : Prims) (pwd nonceB : List Nat) (rounds : Nat)
    (data : List Nat) : Outcome (List Nat) :=
  decryptRoundsGo P pwd nonceB (rounds + 1) rounds data

/-- The trailing 32 bytes appended by `encrypt` when `wrap_all` is set: the
custom salt when provided, else the nonce echo. -/
def wrapSuffix (customSalt : Option Salt) (nonceB : List Nat) : List Nat :=
  match customSalt with
  | some cs => cs.asBytes
  | none => nonceB

/-- The `encrypt` pipeline of `src/lib.rs` (lines 1211-1308). -/
def encrypt (P : Prims) (password data : List Nat) (nonce : NonceData)
    (cfg : Config) (customSalt : Option Salt) (wrapAll : Bool) :
    Outcome (List Nat) :=
  let nonceB := nonce.asBytes
  let passwordK := P.deriveKey password nonceB
  (derivePasswordKey P passwordK nonceB customSalt).bind fun pwd =>
  let prefixPart := if wrapAll then nonceB else []
  let versionPwd := P.blake3 atomCryptePasswordBytes
  (xorEncrypt nonceB versionPwd VERSIONbytes).bind fun encryptedVersion =>
  let sBlock := generateDynamicSbox P nonceB pwd cfg
  (sBytes data sBlock cfg).bind fun sboxed =>
  (mixBlocks P sboxed nonceB pwd cfg).bind fun mixedData =>
  (triangleMixColumns mixedData cfg.gfPoly.value cfg).bind fun mixedColumnsData =>
  (autoDynamicChunkShift P mixedColumnsData nonceB pwd cfg).bind fun shifted0 =>
  (sBytes shifted0 sBlock cfg).bind fun shiftedData =>
  (encryptRounds P pwd nonceB cfg.rounds shiftedData).bind fun crypted =>
  (xorEncrypt nonceB pwd data).bind fun macInner =>
  let mac := P.sha3 (crypted ++ P.blake3 macInner)
  let suffixPart := if wrapAll then wrapSuffix customSalt nonceB else []
  .ok (prefixPart ++ encryptedVersion ++ crypted ++ mac ++ suffixPart)

/-- The body/MAC split of `decrypt`, selected by the decrypted version tags;
tail splits on a too-short `rest` model the Rust `split_at` panic. -/
def splitBody (rest version version2 : List Nat) (wrapped : Bool) :
    Outcome (List Nat × List Nat) :=
  if hasPrefixB VERSION2bytes version2 then
    if rest.length < 32 then .crashed
    else .ok (rest.take (rest.length - 32), rest.drop (rest.length - 32))
  else if hasPrefixB VERSIONbytes version && wrapped then
    if rest.length < 96 then .crashed
    else .ok (rest.take (rest.length - 96), (rest.drop (rest.length - 96)).take 64)
  else
    if rest.length < 64 then .crashed
    else .ok (rest.take (rest.length - 64), rest.drop (rest.length - 64))

/-- Everything `decrypt` does after the nonce/salt framing has been
resolved.  `nonceSupplied` records whether the caller passed a nonce (the
source tests `nonce.is_some() && !wrap_all`). -/
def decryptBody (P : Prims) (password data nonceByte : List Nat)
    (saltOpt : Option Salt) (cfg : Config) (wrapAll nonceSupplied : Bool) :
    Outcome (List Nat) :=
  let passwordHash := P.deriveKey password nonceByte
  (derivePasswordKey P (P.deriveKey password nonceByte) nonceByte saltOpt).bind
    fun expectedPassword =>
  (derivePasswordKey P passwordHash nonceByte saltOpt).bind fun pwd =>
  if ¬ (verifyKeysConstantTime pwd expectedPassword = true) then
    .error (.InvalidMac "Invalid key")
  else if data.length < 32 + VERSIONbytes.length then
    .error (.InvalidMac "Data is too short")
  else
  let versionLen := VERSIONbytes.length
  let direct := nonceSupplied && !wrapAll
  let encryptedVersion :=
    if direct then data.take versionLen else (data.drop 32).take versionLen
  let rest :=
    if direct then data.drop versionLen else (data.drop 32).drop versionLen
  let wrapped := !direct
  let versionPwd := P.blake3 atomCryptePasswordBytes
  (xorDecrypt nonceByte versionPwd encryptedVersion).bind fun version =>
  (xorDecrypt nonceByte pwd encryptedVersion).bind fun version2 =>
  if !(hasPrefixB atomVersionPrefixBytes version) &&
      !(hasPrefixB atomVersionPrefixBytes version2) then
    .error .InvalidAlgorithm
  else
  (splitBody rest version version2 wrapped).bind fun cm =>
  let crypted := cm.1
  let macKey := cm.2
  (decryptRounds P pwd nonceByte cfg.rounds crypted).bind fun xorDecrypted =>
  (inSBytes P xorDecrypted nonceByte pwd cfg).bind fun inS1 =>
  (autoDynamicChunkUnshift P inS1 nonceByte pwd cfg).bind fun unshifted =>
  (inverseTriangleMixColumns unshifted cfg.gfPoly.value cfg).bind
    fun inversedColumns =>
  (unmixBlocks P inversedColumns nonceByte pwd cfg).bind fun unmixed =>
  (inSBytes P unmixed nonceByte pwd cfg).bind fun decryptedData =>
  if hasPrefixB VERSION2bytes version then
    (xorEncrypt nonceByte pwd decryptedData).bind fun xe =>
    if P.blake3Keyed (P.blake3 crypted) xe = macKey then .ok decryptedData
    else .error (.InvalidMac "Invalid authentication")
  else
    (xorEncrypt nonceByte pwd decryptedData).bind fun xe =>
    if P.sha3 (crypted ++ P.blake3 xe) = macKey then .ok decryptedData
    else .error (.InvalidMac "Invalid authentication")

/-- The `decrypt` pipeline of `src/lib.rs` (lines 1312-1469).  When no nonce
is supplied the blob must be `wrap_all`-framed: the source immediately
computes `data.split_at(data.len() - 32)`, which panics (usize underflow) on
blobs shorter than 32 bytes — modelled by `crashed`. -/
def decrypt (P : Prims) (password data : List Nat) (nonce : Option NonceData)
    (cfg : Config) (customSalt : Option Salt) (wrapAll : Bool) :
    Outcome (List Nat) :=
  match nonce with
  | some nd => decryptBody P password data nd.asBytes customSalt cfg wrapAll true
  | none =>
    if data.length < 32 then .crashed
    else
      decryptBody P password data (data.take 32)
        (some (Salt.salt (data.drop (data.length - 32)))) cfg wrapAll false

/-- Pure value of one keyed-XOR encrypt pass (proved equal to
`encryptPass` below). -/
def encryptPassBytes (P : Prims) (pwd nonceB : List Nat) (i : Nat)
    (d : List Nat) : List Nat :=
  let key := P.blake3 (pwd.take (min (i * 8) pwd.length))
  (((chunkList (dynamicSizes d.length) d).map (xorEncryptBytes nonceB key))).flatten

/-- Pure value of one keyed-XOR decrypt pass. -/
def decryptPassBytes (P : Prims) (pwd nonceB : List Nat) (i : Nat)
    (d : List Nat) : List Nat :=
  let key := P.blake3 (pwd.take (min (i * 8) pwd.length))
  (((chunkList (dynamicSizes d.length) d).map (xorDecryptBytes nonceB key))).flatten

/-- Pure value of the ascending encrypt pass sequence. -/
def encPasses (P : Prims) (pwd nonceB : List Nat) : Nat → Nat → List Nat → List Nat
  | 0, _, d => d
  | fuel + 1, i, d => encPasses P pwd nonceB fuel (i + 1) (encryptPassBytes P pwd nonceB i d)

/-- Pure value of the descending decrypt pass sequence. -/
def decPasses (P : Prims) (pwd nonceB : List Nat) : Nat → Nat → List Nat → List Nat
  | 0, _, d => d
  | fuel + 1, i, d => decPasses P pwd nonceB fuel (i - 1) (decryptPassBytes P pwd nonceB i d)

/-- Pure value of the encrypted body produced by the `encrypt` pipeline:
S-box, mix, column mix, chunked shift, S-box again, then the round passes. -/
def encBodyBytes (P : Prims) (pwd nonceB data : List Nat) (cfg : Config) :
    List Nat :=
  let sBlock := generateDynamicSbox P nonceB pwd cfg
  let mixedData := mixBlocksPure P (sBytesPure data sBlock) nonceB pwd
  let mixedColumnsData := triangleMixColumnsPure cfg.gfPoly.value mixedData
  let shiftedData := sBytesPure (dynamicShiftPure P mixedColumnsData nonceB pwd) sBlock
  encPasses P pwd nonceB (cfg.rounds + 1) 0 shiftedData

/-- Index transposition used to describe `listSwap` extensionally. -/
def swapFn (i j x : Nat) : Nat :=
  if x = j then i else if x = i then j else x

/-- Linearity (over XOR) of a byte map; carry-less multiplication by a fixed
element is linear in the other operand. -/
def IsLinear (f : Nat → Nat) : Prop :=
  f 0 = 0 ∧ ∀ x y, f (x ^^^ y) = f x ^^^ f y

/-- XOR-combination of the images of the powers of two selected by the bits
of `d`; a linear byte map is determined by these images. -/
def combineBits (f : Nat → Nat) (n d : Nat) : Nat :=
  (List.range n).foldl (fun acc i => if d.testBit i then acc ^^^ f (2 ^ i) else acc) 0

/-- The 256-entry inverse table of the AES polynomial `0x1b`, as computed by
`initialize_tables` (proved equal to `invTable 27` below). -/
def INVAES : List Nat :=
  [0, 1, 141, 246, 203, 82, 123, 209, 232, 79, 41, 192, 176, 225, 229, 199,
   116, 180, 170, 75, 153, 43, 96, 95, 88, 63, 253, 204, 255, 64, 238, 178,
   58, 110, 90, 241, 85, 77, 168, 201, 193, 10, 152, 21, 48, 68, 162, 194,
   44, 69, 146, 108, 243, 57, 102, 66, 242, 53, 32, 111, 119, 187, 89, 25,
   29, 254, 55, 103, 45, 49, 245, 105, 167, 100, 171, 19, 84, 37, 233, 9,
   237, 92, 5, 202, 76, 36, 135, 191, 24, 62, 34, 240, 81, 236, 97, 23,
   22, 94, 175, 211, 73, 166, 54, 67, 244, 71, 145, 223, 51, 147, 33, 59,
   121, 183, 151, 133, 16, 181, 186, 60, 182, 112, 208, 6, 161, 250, 129, 130,
   131, 126, 127, 128, 150, 115, 190, 86, 155, 158, 149, 217, 247, 2, 185, 164,
   222, 106, 50, 109, 216, 138, 132, 114, 42, 20, 159, 136, 249, 220, 137, 154,
   251, 124, 46, 195, 143, 184, 101, 72, 38, 200, 18, 74, 206, 231, 210, 98,
   12, 224, 31, 239, 17, 117, 120, 113, 165, 142, 118, 61, 189, 188, 134, 87,
   11, 40, 47, 163, 218, 212, 228, 15, 169, 39, 83, 4, 27, 252, 172, 230,
   122, 7, 174, 99, 197, 219, 226, 234, 148, 139, 196, 213, 157, 248, 144, 107,
   177, 13, 214, 235, 198, 14, 207, 173, 8, 78, 215, 227, 93, 80, 30, 179,
   91, 35, 56, 52, 104, 70, 3, 140, 221, 156, 125, 160, 205, 26, 65, 28]

/-- All-zero 32-byte nonce used by witnesses. -/
def nonce0 : List Nat := List.replicate 32 0

/-- Witness nonce value. -/
def nd0 : NonceData := NonceData.nonce nonce0

/-- The derived password key `k_pw` as produced on the success path of
`derive_password_key` (Argon2 of the blake3-derived key, salted by the
base64 of the custom salt when present, else of the nonce). -/
def pwdKey (P : Prims) (password nonceB : List Nat) (salt : Option Salt) :
    List Nat :=
  P.argon2 (P.deriveKey password nonceB)
    (match salt with
     | some cs => P.b64 cs.asBytes
     | none => P.b64 nonceB)

/-- Pure value of the complete blob produced by `encrypt` on its success
path (proved equal to `encrypt` below). -/
def encBlob (P : Prims) (password data nonceB : List Nat) (cfg : Config)
    (customSalt : Option Salt) (wrapAll : Bool) : List Nat :=
  let pwd := pwdKey P password nonceB customSalt
  let body := encBodyBytes P pwd nonceB data cfg
  let mac := P.sha3 (body ++ P.blake3 (xorEncryptBytes nonceB pwd data))
  (if wrapAll then nonceB else []) ++
    xorEncryptBytes nonceB (P.blake3 atomCryptePasswordBytes) VERSIONbytes ++
    body ++ mac ++
    (if wrapAll then wrapSuffix customSalt nonceB else [])

-- ---------------------------------------------------------------------
-- Theorems
-- ---------------------------------------------------------------------

theorem rotl8_mod (b r : Nat) : rotl8 b (r % 8) = rotl8 b r := by
  simp [rotl8, Nat.mod_mod_of_dvd]

theorem rotr8_mod (b r : Nat) : rotr8 b (r % 8) = rotr8 b r := by
  simp [rotr8, Nat.mod_mod_of_dvd]

theorem rotl8_lt (b r : Nat) : rotl8 b r < 256 := Nat.mod_lt _ (by norm_num)

theorem rotr8_lt (b r : Nat) : rotr8 b r < 256 := Nat.mod_lt _ (by norm_num)

theorem rotr8_rotl8 (b r : Nat) (hb : b < 256) : rotr8 (rotl8 b r) r = b := by
  have h8 : r % 8 < 8 := Nat.mod_lt _ (by norm_num)
  have hall : ∀ b' < 256, ∀ s < 8, rotr8 (rotl8 b' s) s = b' := by decide
  have hb' := hall b hb (r % 8) h8
  rwa [rotl8_mod, rotr8_mod] at hb'

theorem rotl8_rotr8 (b r : Nat) (hb : b < 256) : rotl8 (rotr8 b r) r = b := by
  have h8 : r % 8 < 8 := Nat.mod_lt _ (by norm_num)
  have hall : ∀ b' < 256, ∀ s < 8, rotl8 (rotr8 b' s) s = b' := by decide
  have hb' := hall b hb (r % 8) h8
  rwa [rotl8_mod, rotr8_mod] at hb'

theorem wadd_lt (a b : Nat) : wadd a b < 256 := Nat.mod_lt _ (by norm_num)

theorem wsub_lt (a b : Nat) : wsub a b < 256 := Nat.mod_lt _ (by norm_num)

theorem wsub_wadd (x n : Nat) : wsub (wadd x n) n = x % 256 := by
  simp only [wadd, wsub]
  omega

theorem wadd_wsub (x n : Nat) : wadd (wsub x n) n = x % 256 := by
  simp only [wadd, wsub]
  omega

theorem xor_lt_256 {a b : Nat} (ha : a < 256) (hb : b < 256) : a ^^^ b < 256 := by
  have := Nat.xor_lt_two_pow (n := 8) (by simpa using ha) (by simpa using hb)
  simpa using this

theorem mod8_xor (n p : Nat) : (n ^^^ (p % 8)) % 8 = (n ^^^ p) % 8 := by
  have h : ∀ x : Nat, x % 8 = x % 2 ^ 3 := fun x => by norm_num
  apply Nat.eq_of_testBit_eq
  intro i
  simp only [h, Nat.testBit_mod_two_pow, Nat.testBit_xor]
  by_cases hi : i < 3 <;> simp [hi]

theorem rotl8_amount_mod8 (b n p : Nat) :
    rotl8 b (n ^^^ (p % 8)) = rotl8 b ((n ^^^ p) % 8) := by
  rw [← rotl8_mod b (n ^^^ (p % 8)), mod8_xor, rotl8_mod]

theorem decByte_encByte (n p b : Nat) (hb : b < 256) (hn : n < 256)
    (hp : p < 256) : decByte n p (encByte n p b) = b := by
  have hx : b ^^^ (n ^^^ p) < 256 := xor_lt_256 hb (xor_lt_256 hn hp)
  simp only [encByte, decByte]
  rw [wsub_wadd, Nat.mod_eq_of_lt (wadd_lt _ _), wsub_wadd,
    Nat.mod_eq_of_lt (rotl8_lt _ _), rotr8_rotl8 _ _ hx, Nat.xor_cancel_right]

theorem encByte_lt (n p b : Nat) : encByte n p b < 256 := wadd_lt _ _

theorem decByte_lt (n p b : Nat) (hn : n < 256) (hp : p < 256) :
    decByte n p b < 256 :=
  xor_lt_256 (rotr8_lt _ _) (xor_lt_256 hn hp)

theorem unmixByte_mixByte (t b : Nat) (hb : b < 256) (ht : t < 256) :
    unmixByte t (mixByte t b) = b := by
  simp only [mixByte, unmixByte]
  rw [wsub_wadd, Nat.mod_eq_of_lt (xor_lt_256 (rotr8_lt _ _) ht),
    Nat.xor_cancel_right, rotl8_mod, rotr8_mod, rotl8_rotr8 _ _ (wadd_lt _ _),
    wsub_wadd, Nat.mod_eq_of_lt hb]

theorem mixByte_lt (t b : Nat) : mixByte t b < 256 := wadd_lt _ _

theorem unmixByte_lt (t b : Nat) : unmixByte t b < 256 := wsub_lt _ _

theorem unshiftByte_shiftByte (rot x b : Nat) (hb : b < 256) :
    unshiftByte rot x (shiftByte rot x b) = b := by
  simp only [shiftByte, unshiftByte]
  rw [Nat.xor_cancel_right, rotr8_rotl8 _ _ hb]

theorem shiftByte_lt (rot x b : Nat) (hx : x < 256) : shiftByte rot x b < 256 :=
  xor_lt_256 (rotl8_lt _ _) hx

theorem length_mapIdxFrom {α β : Type} (f : Nat → α → β) (i : Nat)
    (l : List α) : (mapIdxFrom f i l).length = l.length := by
  induction l generalizing i with
  | nil => rfl
  | cons a as ih => simp [mapIdxFrom, ih]

theorem mapIdxFrom_mapIdxFrom {α β γ : Type} (f : Nat → α → β)
    (g : Nat → β → γ) (i : Nat) (l : List α) :
    mapIdxFrom g i (mapIdxFrom f i l) = mapIdxFrom (fun k b => g k (f k b)) i l := by
  induction l generalizing i with
  | nil => rfl
  | cons a as ih => simp [mapIdxFrom, ih]

theorem mapIdxFrom_eq_self {α : Type} (f : Nat → α → α) (i : Nat) (l : List α)
    (h : ∀ k, ∀ b ∈ l, f k b = b) : mapIdxFrom f i l = l := by
  induction l generalizing i with
  | nil => rfl
  | cons a as ih =>
    simp only [mapIdxFrom]
    rw [h i a (by simp), ih]
    intro k b hb
    exact h k b (by simp [hb])

theorem mem_mapIdxFrom {α β : Type} {f : Nat → α → β} {i : Nat} {l : List α}
    {y : β} (hy : y ∈ mapIdxFrom f i l) : ∃ k, ∃ b ∈ l, y = f k b := by
  induction l generalizing i with
  | nil => simp [mapIdxFrom] at hy
  | cons a as ih =>
    simp only [mapIdxFrom, List.mem_cons] at hy
    rcases hy with h | h
    · exact ⟨i, a, by simp, h⟩
    · obtain ⟨k, b, hb, he⟩ := ih h
      exact ⟨k, b, by simp [hb], he⟩

theorem getD_lt_of_bytes {l : List Nat} (hl : Bytes l) (k : Nat) :
    l.getD k 0 < 256 := by
  by_cases hk : k < l.length
  · rw [List.getD_eq_getElem l 0 hk]
    exact hl _ (l.getElem_mem hk)
  · rw [List.getD_eq_default l 0 (by omega)]
    norm_num

theorem length_xorEncryptBytes (nonce pwd input : List Nat) :
    (xorEncryptBytes nonce pwd input).length = input.length :=
  length_mapIdxFrom _ _ _

theorem length_xorDecryptBytes (nonce pwd input : List Nat) :
    (xorDecryptBytes nonce pwd input).length = input.length :=
  length_mapIdxFrom _ _ _

theorem xorEncrypt_eq_ok (nonce pwd input : List Nat) (h : input ≠ []) :
    xorEncrypt nonce pwd input = .ok (xorEncryptBytes nonce pwd input) := by
  simp only [xorEncrypt, List.isEmpty_iff]
  rw [if_neg]
  intro he
  have := length_xorEncryptBytes nonce pwd input
  rw [he] at this
  exact h (List.length_eq_zero.mp this.symm)

theorem xorDecrypt_eq_ok (nonce pwd input : List Nat) (h : input ≠ []) :
    xorDecrypt nonce pwd input = .ok (xorDecryptBytes nonce pwd input) := by
  simp only [xorDecrypt, List.isEmpty_iff]
  rw [if_neg]
  intro he
  have := length_xorDecryptBytes nonce pwd input
  rw [he] at this
  exact h (List.length_eq_zero.mp this.symm)

theorem xorDecryptBytes_xorEncryptBytes (nonce pwd input : List Nat)
    (hn : Bytes nonce) (hp : Bytes pwd) (hi : Bytes input) :
    xorDecryptBytes nonce pwd (xorEncryptBytes nonce pwd input) = input := by
  unfold xorEncryptBytes xorDecryptBytes
  rw [mapIdxFrom_mapIdxFrom]
  apply mapIdxFrom_eq_self
  intro k b hb
  exact decByte_encByte _ _ _ (hi b hb) (getD_lt_of_bytes hn _) (getD_lt_of_bytes hp _)

theorem bytes_xorEncryptBytes (nonce pwd input : List Nat) :
    Bytes (xorEncryptBytes nonce pwd input) := by
  intro y hy
  obtain ⟨k, b, _, he⟩ := mem_mapIdxFrom hy
  rw [he]
  exact encByte_lt _ _ _

theorem length_mixBlocksPure (P : Prims) (data nonce pwd : List Nat) :
    (mixBlocksPure P data nonce pwd).length = data.length := by
  simp only [mixBlocksPure]
  split
  · rfl
  · exact length_mapIdxFrom _ _ _

theorem unmixBlocksPure_mixBlocksPure (P : Prims) (data nonce pwd : List Nat)
    (hP : PrimsWF P) (hd : Bytes data) :
    unmixBlocksPure P (mixBlocksPure P data nonce pwd) nonce pwd = data := by
  simp only [mixBlocksPure, unmixBlocksPure]
  by_cases h3 : data.length = 3
  · simp [h3]
  · rw [if_neg h3, if_neg (by rw [length_mapIdxFrom]; exact h3),
      mapIdxFrom_mapIdxFrom]
    apply mapIdxFrom_eq_self
    intro k b hb
    exact unmixByte_mixByte _ _ (hd b hb) (getD_lt_of_bytes (hP.blake3_lt _) _)

theorem bytes_mixBlocksPure (P : Prims) (data nonce pwd : List Nat)
    (hd : Bytes data) : Bytes (mixBlocksPure P data nonce pwd) := by
  simp only [mixBlocksPure]
  split
  · exact hd
  · intro y hy
    obtain ⟨k, b, _, he⟩ := mem_mapIdxFrom hy
    rw [he]
    exact mixByte_lt _ _

theorem getD_set_self (l : List Nat) (i a : Nat) (h : i < l.length) :
    (l.set i a).getD i 0 = a := by
  rw [List.getD_eq_getElem _ _ (by simpa using h)]
  simp [List.getElem_set]

theorem getD_set_ne (l : List Nat) (i j a : Nat) (h : i ≠ j) :
    (l.set i a).getD j 0 = l.getD j 0 := by
  by_cases hj : j < l.length
  · rw [List.getD_eq_getElem _ _ (by simpa using hj), List.getD_eq_getElem _ _ hj]
    simp [List.getElem_set, h]
  · rw [List.getD_eq_default _ _ (by simpa using hj), List.getD_eq_default _ _ (by omega)]

theorem length_listSwap (l : List Nat) (i j : Nat) :
    (listSwap l i j).length = l.length := by
  simp [listSwap]

theorem getD_listSwap (l : List Nat) (i j x : Nat) (hi : i < l.length)
    (hj : j < l.length) :
    (listSwap l i j).getD x 0 = l.getD (swapFn i j x) 0 := by
  simp only [listSwap, swapFn]
  by_cases hxj : x = j
  · subst hxj
    rw [getD_set_self _ _ _ (by simpa using hj), if_pos rfl]
  · rw [getD_set_ne _ _ _ _ (fun h => hxj h.symm), if_neg hxj]
    by_cases hxi : x = i
    · subst hxi
      rw [getD_set_self _ _ _ hi, if_pos rfl]
    · rw [getD_set_ne _ _ _ _ (fun h => hxi h.symm), if_neg hxi]

theorem swapFn_lt (i j x n : Nat) (hi : i < n) (hj : j < n) (hx : x < n) :
    swapFn i j x < n := by
  simp only [swapFn]
  split
  · exact hi
  · split
    · exact hj
    · exact hx

theorem swapFn_invol (i j x : Nat) : swapFn i j (swapFn i j x) = x := by
  simp only [swapFn]
  split_ifs <;> omega

theorem swapFn_inj (i j x y : Nat) (h : swapFn i j x = swapFn i j y) : x = y := by
  have hx := swapFn_invol i j x
  rw [h, swapFn_invol] at hx
  exact hx.symm

/-- The S-box invariant maintained by the Fisher-Yates fold. -/
def SboxOK (s : List Nat) : Prop :=
  s.length = 256 ∧ (∀ x, x < 256 → s.getD x 0 < 256) ∧
    (∀ x y, x < 256 → y < 256 → s.getD x 0 = s.getD y 0 → x = y)

theorem sboxOK_swap (s : List Nat) (i j : Nat) (hs : SboxOK s) (hi : i < 256)
    (hj : j < 256) : SboxOK (listSwap s i j) := by
  obtain ⟨hlen, hlt, hinj⟩ := hs
  have hi' : i < s.length := by omega
  have hj' : j < s.length := by omega
  refine ⟨by rw [length_listSwap]; exact hlen, ?_, ?_⟩
  · intro x hx
    rw [getD_listSwap _ _ _ _ hi' hj']
    exact hlt _ (swapFn_lt _ _ _ _ hi hj hx)
  · intro x y hx hy h
    rw [getD_listSwap _ _ _ _ hi' hj', getD_listSwap _ _ _ _ hi' hj'] at h
    exact swapFn_inj i j x y
      (hinj _ _ (swapFn_lt _ _ _ _ hi hj hx) (swapFn_lt _ _ _ _ hi hj hy) h)

theorem sboxOK_range256 : SboxOK (List.range 256) := by
  refine ⟨by simp, ?_, ?_⟩
  · intro x hx
    rw [List.getD_eq_getElem _ _ (by simpa using hx)]
    simpa using hx
  · intro x y hx hy h
    rw [List.getD_eq_getElem _ _ (by simpa using hx),
      List.getD_eq_getElem _ _ (by simpa using hy)] at h
    simpa using h

theorem sboxOK_generateDynamicSbox (P : Prims) (nonce key : List Nat)
    (cfg : Config) : SboxOK (generateDynamicSbox P nonce key cfg) := by
  unfold generateDynamicSbox
  generalize (match cfg.sbox with
    | SboxTypes.PasswordBased => P.blake3 key
    | SboxTypes.NonceBased => P.blake3 nonce
    | SboxTypes.PasswordAndNonceBased => P.blake3 (nonce ++ key)) = seed
  have main : ∀ (l : List Nat) (s : List Nat), SboxOK s →
      SboxOK (l.foldl (fun sbox k =>
        let i := 255 - k
        let index := (seed.getD (i % seed.length) 0 +
          seed.getD ((i * 7) % seed.length) 0) % (i + 1)
        listSwap sbox i index) s) := by
    intro l
    induction l with
    | nil => intro s hs; exact hs
    | cons a as ih =>
      intro s hs
      simp only [List.foldl_cons]
      apply ih
      apply sboxOK_swap _ _ _ hs (by omega)
      have : (seed.getD ((255 - a) % seed.length) 0 +
          seed.getD (((255 - a) * 7) % seed.length) 0) % (255 - a + 1) < 255 - a + 1 :=
        Nat.mod_lt _ (by omega)
      omega
  exact main _ _ sboxOK_range256

theorem genInvGo_length (s : List Nat) (acc : List Nat) (i : Nat) :
    (genInvGo i acc s).length = acc.length := by
  induction s generalizing acc i with
  | nil => rfl
  | cons v rest ih => simp [genInvGo, ih]

theorem genInvGo_preserve (s : List Nat) (acc : List Nat) (i v : Nat)
    (hv : v ∉ s) : (genInvGo i acc s).getD v 0 = acc.getD v 0 := by
  induction s generalizing acc i with
  | nil => rfl
  | cons w rest ih =>
    simp only [genInvGo]
    rw [ih _ _ (fun h => hv (by simp [h]))]
    exact getD_set_ne _ _ _ _ (fun h => hv (by simp [h]))

/-- Index-level injectivity of a byte table. -/
def Sinj (s : List Nat) : Prop :=
  ∀ k1 k2, k1 < s.length → k2 < s.length →
    s.getD k1 0 = s.getD k2 0 → k1 = k2

theorem sinj_tail {w : Nat} {rest : List Nat} (h : Sinj (w :: rest)) :
    Sinj rest := by
  intro k1 k2 h1 h2 he
  have := h (k1 + 1) (k2 + 1) (by simpa using h1) (by simpa using h2)
    (by simpa using he)
  omega

theorem sinj_head_not_mem {w : Nat} {rest : List Nat} (h : Sinj (w :: rest)) :
    w ∉ rest := by
  intro hmem
  obtain ⟨m, hm, hval⟩ := List.getElem_of_mem hmem
  have hgd : (w :: rest).getD (m + 1) 0 = (w :: rest).getD 0 0 := by
    rw [List.getD_cons_succ, List.getD_cons_zero, List.getD_eq_getElem _ _ hm, hval]
  have := h (m + 1) 0 (by simpa using hm) (by simp) hgd
  omega

theorem genInv_spec (s : List Nat) (acc : List Nat) (i0 : Nat)
    (hacc : acc.length = 256) (hval : ∀ v ∈ s, v < 256) (hinj : Sinj s) :
    ∀ k < s.length, (genInvGo i0 acc s).getD (s.getD k 0) 0 = i0 + k := by
  induction s generalizing acc i0 with
  | nil => intro k hk; simp at hk
  | cons w rest ih =>
    intro k hk
    match k with
    | 0 =>
      simp only [genInvGo, List.getD_cons_zero]
      rw [genInvGo_preserve _ _ _ _ (sinj_head_not_mem hinj)]
      rw [getD_set_self _ _ _ (by rw [hacc]; exact hval w (by simp))]
      omega
    | k + 1 =>
      simp only [genInvGo, List.getD_cons_succ]
      rw [ih _ _ (by simpa using hacc) (fun v hv => hval v (by simp [hv]))
        (sinj_tail hinj) k (by simpa using hk)]
      omega

theorem sbox_inv_getD (s : List Nat) (hs : SboxOK s) (b : Nat) (hb : b < 256) :
    (generateInvSBox s).getD (s.getD b 0) 0 = b := by
  obtain ⟨hlen, hlt, hinj⟩ := hs
  have hval : ∀ v ∈ s, v < 256 := by
    intro v hv
    obtain ⟨m, hm, hval⟩ := List.getElem_of_mem hv
    have : s.getD m 0 = v := by rw [List.getD_eq_getElem _ _ hm]; exact hval
    rw [← this]
    exact hlt m (by omega)
  have hsinj : Sinj s := by
    intro k1 k2 h1 h2 he
    exact hinj k1 k2 (by omega) (by omega) he
  have := genInv_spec s (List.replicate 256 0) 0 (by simp) hval hsinj b
    (by omega)
  simpa using this

theorem length_sBytesPure (data sbox : List Nat) :
    (sBytesPure data sbox).length = data.length := by
  simp [sBytesPure]

theorem length_inSBytesPure (P : Prims) (data nonce pwd : List Nat)
    (cfg : Config) : (inSBytesPure P data nonce pwd cfg).length = data.length := by
  simp [inSBytesPure]

theorem bytes_sBytesPure (data sbox : List Nat) (hs : SboxOK sbox) :
    Bytes (sBytesPure data sbox) := by
  intro y hy
  simp only [sBytesPure, List.mem_map] at hy
  obtain ⟨b, _, he⟩ := hy
  rw [← he]
  exact getD_lt_of_bytes (fun v hv => by
    obtain ⟨m, hm, hval⟩ := List.getElem_of_mem hv
    have : sbox.getD m 0 = v := by rw [List.getD_eq_getElem _ _ hm]; exact hval
    rw [← this]
    exact hs.2.1 m (by have := hs.1; omega)) _

theorem map_eq_self {α : Type} (l : List α) (f : α → α)
    (h : ∀ a ∈ l, f a = a) : l.map f = l := by
  induction l with
  | nil => rfl
  | cons a as ih =>
    simp only [List.map_cons]
    rw [h a (by simp), ih (fun b hb => h b (by simp [hb]))]

theorem inSBytesPure_sBytesPure (P : Prims) (data nonce pwd : List Nat)
    (cfg : Config) (hd : Bytes data) :
    inSBytesPure P (sBytesPure data (generateDynamicSbox P nonce pwd cfg))
      nonce pwd cfg = data := by
  simp only [inSBytesPure, sBytesPure, List.map_map]
  refine map_eq_self _ _ (fun b hb => ?_)
  have hs := sboxOK_generateDynamicSbox P nonce pwd cfg
  have h2 := sbox_inv_getD _ hs b (hd b hb)
  simp only [Function.comp]
  exact h2

theorem gfMulGo_lt (poly : Nat) (fuel : Nat) :
    ∀ p a b, p < 256 → gfMulGo poly fuel p a b < 256 := by
  induction fuel with
  | zero => intro p a b hp; exact hp
  | succ fuel ih =>
    intro p a b hp
    simp only [gfMulGo]
    split
    · exact hp
    · apply ih
      split
      · exact xor_lt_256 hp (Nat.mod_lt _ (by norm_num))
      · exact hp

theorem gfMul_lt (poly a b : Nat) : gfMul poly a b < 256 :=
  gfMulGo_lt _ _ _ _ _ (by norm_num)

theorem xor_cancel_mid (x y z : Nat) : (((x ^^^ y) ^^^ z) ^^^ y) ^^^ z = x := by
  rw [Nat.xor_assoc (x ^^^ y) z y, Nat.xor_comm z y, ← Nat.xor_assoc (x ^^^ y) y z,
    Nat.xor_cancel_right, Nat.xor_cancel_right]

theorem gf_inv3_aes : invTable 27 3 = 246 := by decide

theorem gf_inv4_aes : invTable 27 4 = 203 := by decide

theorem gf_inv5_aes : invTable 27 5 = 82 := by decide

theorem gf_mul_inv3_aes : ∀ a < 256, gfMul 27 246 (gfMul 27 3 a) = a := by decide

theorem gf_mul_inv4_aes : ∀ b < 256, gfMul 27 203 (gfMul 27 4 b) = b := by decide

theorem gf_mul_inv5_aes : ∀ c < 256, gfMul 27 82 (gfMul 27 5 c) = c := by decide

theorem gf_mul_one_aes : ∀ c < 256, gfMul 27 1 c = c := by decide

theorem invTriChunk_triChunk (a b c : Nat) (ha : a < 256) (hb : b < 256)
    (hc : c < 256) :
    invTriChunk 27 (gfMul 27 3 a ^^^ gfMul 27 2 b ^^^ c) (gfMul 27 4 b ^^^ c)
      (gfMul 27 5 c) = [a, b, c] := by
  simp only [invTriChunk, gfInverse, if_neg (by norm_num : ¬(5 : Nat) = 0),
    if_neg (by norm_num : ¬(4 : Nat) = 0), if_neg (by norm_num : ¬(3 : Nat) = 0),
    gf_inv3_aes, gf_inv4_aes, gf_inv5_aes, Option.getD_some]
  rw [gf_mul_inv5_aes c hc]
  rw [gf_mul_one_aes c hc, Nat.xor_cancel_right, gf_mul_inv4_aes b hb]
  rw [xor_cancel_mid, gf_mul_inv3_aes a ha]

theorem tri_cons3 (poly a b c : Nat) (r : List Nat) :
    triangleMixColumnsPure poly (a :: b :: c :: r) =
      triChunk poly a b c ++ triangleMixColumnsPure poly r := rfl

theorem invTri_cons3 (poly x y z : Nat) (r : List Nat) :
    inverseTriangleMixColumnsPure poly (x :: y :: z :: r) =
      invTriChunk poly x y z ++ inverseTriangleMixColumnsPure poly r := rfl

theorem triangle_short (poly : Nat) (l : List Nat)
    (h : ∀ (a b c : Nat) (r : List Nat), l = a :: b :: c :: r → False) :
    triangleMixColumnsPure poly l = l ∧ inverseTriangleMixColumnsPure poly l = l := by
  match l with
  | [] => exact ⟨rfl, rfl⟩
  | [a] => exact ⟨rfl, rfl⟩
  | [a, b] => exact ⟨rfl, rfl⟩
  | a :: b :: c :: r => exact absurd rfl (h a b c r)

theorem inverseTriangle_triangle_aes (l : List Nat) (hl : Bytes l) :
    inverseTriangleMixColumnsPure 27 (triangleMixColumnsPure 27 l) = l := by
  induction l using triangleMixColumnsPure.induct 27 with
  | case1 a b c rest ih =>
    have ha := hl a (by simp)
    have hb := hl b (by simp)
    have hc := hl c (by simp)
    rw [tri_cons3]
    simp only [triChunk, List.cons_append, List.nil_append]
    rw [invTri_cons3, invTriChunk_triChunk a b c ha hb hc,
      ih (fun x hx => hl x (by simp [hx]))]
    rfl
  | case2 rest h =>
    rw [(triangle_short 27 rest h).1, (triangle_short 27 rest h).2]

theorem length_triangleMixColumnsPure (poly : Nat) (l : List Nat) :
    (triangleMixColumnsPure poly l).length = l.length := by
  induction l using triangleMixColumnsPure.induct poly with
  | case1 a b c rest ih =>
    rw [tri_cons3]
    simp [triChunk, ih]
  | case2 rest h => rw [(triangle_short poly rest h).1]

theorem length_inverseTriangleMixColumnsPure (poly : Nat) (l : List Nat) :
    (inverseTriangleMixColumnsPure poly l).length = l.length := by
  induction l using inverseTriangleMixColumnsPure.induct poly with
  | case1 a b c rest ih =>
    rw [invTri_cons3]
    simp [invTriChunk, ih]
  | case2 rest h =>
    have h2 : ∀ (a b c : Nat) (r : List Nat), rest = a :: b :: c :: r → False := h
    rw [(triangle_short poly rest h2).2]

theorem bytes_triangleMixColumnsPure (poly : Nat) (l : List Nat)
    (hl : Bytes l) : Bytes (triangleMixColumnsPure poly l) := by
  induction l using triangleMixColumnsPure.induct poly with
  | case1 a b c rest ih =>
    rw [tri_cons3]
    intro y hy
    simp only [triChunk, List.cons_append, List.nil_append, List.mem_cons] at hy
    rcases hy with h | h | h | h
    · rw [h]; exact xor_lt_256 (xor_lt_256 (gfMul_lt _ _ _) (gfMul_lt _ _ _)) (hl c (by simp))
    · rw [h]; exact xor_lt_256 (gfMul_lt _ _ _) (hl c (by simp))
    · rw [h]; exact gfMul_lt _ _ _
    · exact ih (fun x hx => hl x (by simp [hx])) y h
  | case2 rest h =>
    rw [(triangle_short poly rest h).1]
    exact hl

theorem triangle_drop_remainder (poly : Nat) (l : List Nat) :
    (triangleMixColumnsPure poly l).drop (3 * (l.length / 3)) =
      l.drop (3 * (l.length / 3)) := by
  induction l using triangleMixColumnsPure.induct poly with
  | case1 a b c rest ih =>
    rw [tri_cons3]
    have hlen : (a :: b :: c :: rest).length = rest.length + 3 := by simp
    rw [hlen]
    have hdiv : 3 * ((rest.length + 3) / 3) = 3 * (rest.length / 3) + 3 := by omega
    rw [hdiv]
    simpa [triChunk] using ih
  | case2 rest h =>
    match rest, h with
    | [], _ => rfl
    | [a], _ => rfl
    | [a, b], _ => rfl
    | a :: b :: c :: r, h => exact absurd rfl (h a b c r)

theorem inverse_triangle_drop_remainder (poly : Nat) (l : List Nat) :
    (inverseTriangleMixColumnsPure poly l).drop (3 * (l.length / 3)) =
      l.drop (3 * (l.length / 3)) := by
  induction l using inverseTriangleMixColumnsPure.induct poly with
  | case1 a b c rest ih =>
    rw [invTri_cons3]
    have hlen : (a :: b :: c :: rest).length = rest.length + 3 := by simp
    rw [hlen]
    have hdiv : 3 * ((rest.length + 3) / 3) = 3 * (rest.length / 3) + 3 := by omega
    rw [hdiv]
    simpa [invTriChunk] using ih
  | case2 rest h =>
    match rest, h with
    | [], _ => rfl
    | [a], _ => rfl
    | [a, b], _ => rfl
    | a :: b :: c :: r, h => exact absurd rfl (h a b c r)

theorem dynamicSizes_ge (n : Nat) : 14 ≤ dynamicSizes n := by
  unfold dynamicSizes
  repeat' rw [apply_ite (14 ≤ ·)]
  simp only [ite_prop_iff_and]
  norm_num

theorem getChunkSizesGo_sum (seed : List Nat) (dataLen dataSize : Nat)
    (hds : 1 ≤ dataSize) :
    ∀ fuel pos, dataLen - pos ≤ fuel →
      (getChunkSizesGo seed dataLen dataSize fuel pos).sum = dataLen - pos := by
  intro fuel
  induction fuel with
  | zero =>
    intro pos hp
    simp only [getChunkSizesGo, List.sum_nil]
    omega
  | succ fuel ih =>
    intro pos hp
    simp only [getChunkSizesGo]
    split
    · rename_i hlt
      simp only [List.sum_cons]
      rw [ih (pos + (dataSize + (seed.getD (pos % seed.length) 0 % 8))) (by omega)]
      omega
    · rename_i hge
      simp only [List.sum_nil]
      omega

theorem getChunkSizesGo_pos (seed : List Nat) (dataLen dataSize : Nat)
    (hds : 1 ≤ dataSize) :
    ∀ fuel pos, ∀ s ∈ getChunkSizesGo seed dataLen dataSize fuel pos, 1 ≤ s := by
  intro fuel
  induction fuel with
  | zero => intro pos s hs; simp [getChunkSizesGo] at hs
  | succ fuel ih =>
    intro pos s hs
    simp only [getChunkSizesGo] at hs
    split at hs
    · rename_i hlt
      simp only [List.mem_cons] at hs
      rcases hs with h | h
      · omega
      · exact ih _ s h
    · simp at hs

theorem getChunkSizes_sum (P : Prims) (dataLen : Nat) (nonce key : List Nat) :
    (getChunkSizes P dataLen nonce key).sum = dataLen := by
  unfold getChunkSizes
  rw [getChunkSizesGo_sum _ _ _ (by have := dynamicSizes_ge dataLen; omega)
    dataLen 0 (by omega)]
  omega

theorem getChunkSizes_pos (P : Prims) (dataLen : Nat) (nonce key : List Nat) :
    ∀ s ∈ getChunkSizes P dataLen nonce key, 1 ≤ s := by
  unfold getChunkSizes
  exact getChunkSizesGo_pos _ _ _ (by have := dynamicSizes_ge dataLen; omega) _ _

theorem length_shiftChunksGo (nonce key : List Nat) :
    ∀ (sizes : List Nat) (i : Nat) (buf : List Nat),
      sizes.sum = buf.length →
      (shiftChunksGo nonce key i sizes buf).length = buf.length := by
  intro sizes
  induction sizes with
  | nil => intro i buf h; simp only [shiftChunksGo]; simp at h ⊢; omega
  | cons s rest ih =>
    intro i buf h
    simp only [shiftChunksGo, List.length_append, List.length_map,
      List.length_take]
    rw [ih (i + 1) (buf.drop s) (by simp at h ⊢; omega)]
    simp only [List.sum_cons] at h
    simp
    omega

theorem take_append_exact {α : Type} (a b : List α) (s : Nat)
    (h : a.length = s) : (a ++ b).take s = a := by
  rw [← h, List.take_left]

theorem drop_append_exact {α : Type} (a b : List α) (s : Nat)
    (h : a.length = s) : (a ++ b).drop s = b := by
  rw [← h, List.drop_left]

theorem unshift_shift_chunks (nonce key : List Nat) :
    ∀ (sizes : List Nat) (i : Nat) (buf : List Nat),
      sizes.sum = buf.length → Bytes buf →
      unshiftChunksGo nonce key i sizes (shiftChunksGo nonce key i sizes buf) =
        buf := by
  intro sizes
  induction sizes with
  | nil =>
    intro i buf h _
    simp only [shiftChunksGo, unshiftChunksGo]
    simp at h
    exact (List.length_eq_zero.mp h.symm).symm ▸ rfl
  | cons s rest ih =>
    intro i buf h hb
    simp only [List.sum_cons] at h
    have hs_le : s ≤ buf.length := by omega
    simp only [shiftChunksGo, unshiftChunksGo]
    have hlen : ((buf.take s).map
        (shiftByte (nonce.getD (i % nonce.length) 0 % 8)
          (key.getD (i % key.length) 0))).length = s := by
      simp
      omega
    rw [take_append_exact _ _ _ hlen, drop_append_exact _ _ _ hlen,
      List.map_map]
    rw [map_eq_self (List.take s buf)
      (unshiftByte (nonce.getD (i % nonce.length) 0 % 8) (key.getD (i % key.length) 0) ∘
        shiftByte (nonce.getD (i % nonce.length) 0 % 8) (key.getD (i % key.length) 0))
      (fun b hbm => by
        simp only [Function.comp_apply]
        exact unshiftByte_shiftByte _ _ _ (hb b (List.mem_of_mem_take hbm)))]
    rw [ih (i + 1) (buf.drop s) (by simp; omega)
      (fun b hbm => hb b (List.mem_of_mem_drop hbm))]
    exact (List.take_append_drop s buf)

theorem length_unshiftChunksGo (nonce key : List Nat) :
    ∀ (sizes : List Nat) (i : Nat) (buf : List Nat),
      sizes.sum = buf.length →
      (unshiftChunksGo nonce key i sizes buf).length = buf.length := by
  intro sizes
  induction sizes with
  | nil => intro i buf h; simp only [unshiftChunksGo]; simp at h ⊢; omega
  | cons s rest ih =>
    intro i buf h
    simp only [unshiftChunksGo, List.length_append, List.length_map,
      List.length_take]
    rw [ih (i + 1) (buf.drop s) (by simp at h ⊢; omega)]
    simp only [List.sum_cons] at h
    simp
    omega

theorem bytes_shiftChunksGo (nonce key : List Nat) (hk : Bytes key) :
    ∀ (sizes : List Nat) (i : Nat) (buf : List Nat),
      Bytes (shiftChunksGo nonce key i sizes buf) := by
  intro sizes
  induction sizes with
  | nil => intro i buf y hy; simp [shiftChunksGo] at hy
  | cons s rest ih =>
    intro i buf y hy
    simp only [shiftChunksGo, List.mem_append, List.mem_map] at hy
    rcases hy with ⟨b, _, he⟩ | h
    · rw [← he]
      exact shiftByte_lt _ _ _ (getD_lt_of_bytes hk _)
    · exact ih (i + 1) (buf.drop s) y h

theorem length_dynamicShiftPure (P : Prims) (data nonce password : List Nat) :
    (dynamicShiftPure P data nonce password).length = data.length := by
  unfold dynamicShiftPure
  rw [List.length_reverse, length_shiftChunksGo _ _ _ _ _ (getChunkSizes_sum _ _ _ _)]

theorem bytes_dynamicShiftPure (P : Prims) (data nonce password : List Nat)
    (hP : PrimsWF P) : Bytes (dynamicShiftPure P data nonce password) := by
  unfold dynamicShiftPure
  intro y hy
  rw [List.mem_reverse] at hy
  exact bytes_shiftChunksGo _ _ (hP.blake3_lt _) _ _ _ y hy

theorem dynamicUnshiftPure_dynamicShiftPure (P : Prims)
    (data nonce password : List Nat) (hd : Bytes data) :
    dynamicUnshiftPure P (dynamicShiftPure P data nonce password) nonce
      password = data := by
  unfold dynamicUnshiftPure dynamicShiftPure
  rw [List.reverse_reverse]
  dsimp only
  rw [length_shiftChunksGo _ _ _ _ _ (getChunkSizes_sum _ _ _ _)]
  exact unshift_shift_chunks _ _ _ 0 data (getChunkSizes_sum _ _ _ _) hd

theorem chunkListGo_flatten (s : Nat) :
    ∀ (fuel : Nat) (l : List Nat), (chunkListGo s fuel l).flatten = l := by
  intro fuel
  induction fuel with
  | zero =>
    intro l
    match l with
    | [] => rfl
    | a :: as => simp [chunkListGo]
  | succ fuel ih =>
    intro l
    match l with
    | [] => rfl
    | a :: as =>
      simp only [chunkListGo, List.flatten_cons, ih]
      exact List.take_append_drop _ _

theorem chunkList_flatten (s : Nat) (l : List Nat) :
    (chunkList s l).flatten = l := chunkListGo_flatten s l.length l

theorem chunkListGo_ne_nil (s : Nat) (hs : 1 ≤ s) :
    ∀ (fuel : Nat) (l : List Nat), ∀ c ∈ chunkListGo s fuel l, c ≠ [] := by
  intro fuel
  induction fuel with
  | zero =>
    intro l c hc
    match l with
    | [] => simp [chunkListGo] at hc
    | a :: as =>
      simp only [chunkListGo, List.mem_singleton] at hc
      rw [hc]
      simp
  | succ fuel ih =>
    intro l c hc
    match l with
    | [] => simp [chunkListGo] at hc
    | a :: as =>
      simp only [chunkListGo, List.mem_cons] at hc
      rcases hc with h | h
      · rw [h]
        intro he
        have := congrArg List.length he
        simp at this
        omega
      · exact ih _ c h

theorem chunkListGo_mem_subset (s : Nat) :
    ∀ (fuel : Nat) (l : List Nat), ∀ c ∈ chunkListGo s fuel l, ∀ x ∈ c, x ∈ l := by
  intro fuel
  induction fuel with
  | zero =>
    intro l c hc x hx
    match l with
    | [] => simp [chunkListGo] at hc
    | a :: as =>
      simp only [chunkListGo, List.mem_singleton] at hc
      rw [hc] at hx
      exact hx
  | succ fuel ih =>
    intro l c hc x hx
    match l with
    | [] => simp [chunkListGo] at hc
    | a :: as =>
      simp only [chunkListGo, List.mem_cons] at hc
      rcases hc with h | h
      · rw [h] at hx
        exact List.mem_of_mem_take hx
      · exact List.mem_of_mem_drop (ih _ c h x hx)

theorem chunkListGo_fuel_irrel (s : Nat) (hs : 1 ≤ s) :
    ∀ (fuel1 fuel2 : Nat) (l : List Nat), l.length ≤ fuel1 →
      l.length ≤ fuel2 → chunkListGo s fuel1 l = chunkListGo s fuel2 l := by
  intro fuel1
  induction fuel1 with
  | zero =>
    intro fuel2 l h1 h2
    match l with
    | [] =>
      match fuel2 with
      | 0 => rfl
      | f + 1 => rfl
    | a :: as => simp at h1
  | succ fuel1 ih =>
    intro fuel2 l h1 h2
    match l with
    | [] =>
      match fuel2 with
      | 0 => rfl
      | f + 1 => rfl
    | a :: as =>
      match fuel2 with
      | 0 => simp at h2
      | f + 1 =>
        simp only [chunkListGo]
        rw [ih f ((a :: as).drop s)]
        · have : ((a :: as).drop s).length = (a :: as).length - s := by simp
          omega
        · have : ((a :: as).drop s).length = (a :: as).length - s := by simp
          omega

theorem chunkList_cons_of_ne_nil (s : Nat) (hs : 1 ≤ s) (l : List Nat)
    (hl : l ≠ []) :
    chunkList s l = l.take s :: chunkList s (l.drop s) := by
  unfold chunkList
  match l, hl with
  | a :: as, _ =>
    simp only [List.length_cons, chunkListGo]
    congr 1
    apply chunkListGo_fuel_irrel s hs
    · simp
      omega
    · simp

theorem length_flatten_map (f : List Nat → List Nat)
    (hf : ∀ c, (f c).length = c.length) (cs : List (List Nat)) :
    ((cs.map f).flatten).length = cs.flatten.length := by
  induction cs with
  | nil => rfl
  | cons c rest ih => simp [hf, ih]

theorem rechunk (s : Nat) (hs : 1 ≤ s) (f : List Nat → List Nat)
    (hf : ∀ c, (f c).length = c.length) :
    ∀ (l : List Nat), chunkList s ((chunkList s l).map f).flatten =
      (chunkList s l).map f := by
  suffices h : ∀ (n : Nat) (l : List Nat), l.length = n →
      chunkList s ((chunkList s l).map f).flatten = (chunkList s l).map f by
    intro l
    exact h l.length l rfl
  intro n
  induction n using Nat.strong_induction_on with
  | _ n ih =>
    intro l hn
    match l with
    | [] => rfl
    | a :: as =>
      rw [chunkList_cons_of_ne_nil s hs (a :: as) (by simp)]
      set A := f ((a :: as).take s) with hA
      set B := ((chunkList s ((a :: as).drop s)).map f).flatten with hB
      have hAlen : A.length = min s (as.length + 1) := by
        rw [hA, hf]
        simp [Nat.min_comm]
      have hBlen : B.length = (a :: as).length - s := by
        rw [hB, length_flatten_map f hf, chunkList_flatten]
        simp
      simp only [List.map_cons, List.flatten_cons]
      by_cases hcase : as.length + 1 ≤ s
      · have hdropnil : (a :: as).drop s = [] := by
          apply List.drop_eq_nil_of_le
          simpa using hcase
        rw [hdropnil]
        have hchnil : chunkList s ([] : List Nat) = [] := rfl
        rw [hchnil]
        simp only [List.map_nil, List.flatten_nil, List.append_nil]
        have hAne : A ≠ [] := by
          intro he
          rw [he] at hAlen
          simp at hAlen
          omega
        rw [chunkList_cons_of_ne_nil s hs A hAne]
        rw [List.take_of_length_le (by omega)]
        have : A.drop s = [] := List.drop_eq_nil_of_le (by omega)
        rw [this, hchnil]
      · push_neg at hcase
        have hABne : A ++ B ≠ [] := by
          intro he
          have := congrArg List.length he
          simp [hAlen] at this
          omega
        rw [chunkList_cons_of_ne_nil s hs _ hABne]
        have hAs : A.length = s := by omega
        rw [take_append_exact _ _ _ hAs, drop_append_exact _ _ _ hAs]
        congr 1
        rw [hB]
        apply ih ((a :: as).drop s).length _ _ rfl
        rw [← hn]
        simp
        omega

theorem outcomeMapList_ok {α β : Type} (f : α → Outcome β) (g : α → β)
    (l : List α) (h : ∀ c ∈ l, f c = .ok (g c)) :
    outcomeMapList f l = .ok (l.map g) := by
  induction l with
  | nil => rfl
  | cons c rest ih =>
    simp only [outcomeMapList, h c (by simp), Outcome.bind,
      ih (fun x hx => h x (by simp [hx])), List.map_cons]

theorem encryptPass_ok (P : Prims) (pwd nonceB : List Nat) (i : Nat)
    (d : List Nat) :
    encryptPass P pwd nonceB i d = .ok (encryptPassBytes P pwd nonceB i d) := by
  unfold encryptPass encryptPassBytes
  dsimp only
  rw [outcomeMapList_ok _
    (xorEncryptBytes nonceB (P.blake3 (pwd.take (min (i * 8) pwd.length))))]
  · rfl
  · intro c hc
    have hne := chunkListGo_ne_nil (dynamicSizes d.length)
      (by have := dynamicSizes_ge d.length; omega) _ _ c hc
    rw [xorEncrypt_eq_ok _ _ _ hne]
    rfl

theorem decryptPass_ok (P : Prims) (pwd nonceB : List Nat) (i : Nat)
    (d : List Nat) :
    decryptPass P pwd nonceB i d = .ok (decryptPassBytes P pwd nonceB i d) := by
  unfold decryptPass decryptPassBytes
  dsimp only
  rw [outcomeMapList_ok _
    (xorDecryptBytes nonceB (P.blake3 (pwd.take (min (i * 8) pwd.length))))]
  · rfl
  · intro c hc
    have hne := chunkListGo_ne_nil (dynamicSizes d.length)
      (by have := dynamicSizes_ge d.length; omega) _ _ c hc
    rw [xorDecrypt_eq_ok _ _ _ hne]
    rfl

theorem length_encryptPassBytes (P : Prims) (pwd nonceB : List Nat) (i : Nat)
    (d : List Nat) : (encryptPassBytes P pwd nonceB i d).length = d.length := by
  unfold encryptPassBytes
  dsimp only
  rw [length_flatten_map _ (fun c => length_xorEncryptBytes _ _ c),
    chunkList_flatten]

theorem length_decryptPassBytes (P : Prims) (pwd nonceB : List Nat) (i : Nat)
    (d : List Nat) : (decryptPassBytes P pwd nonceB i d).length = d.length := by
  unfold decryptPassBytes
  dsimp only
  rw [length_flatten_map _ (fun c => length_xorDecryptBytes _ _ c),
    chunkList_flatten]

theorem bytes_encryptPassBytes (P : Prims) (pwd nonceB : List Nat) (i : Nat)
    (d : List Nat) : Bytes (encryptPassBytes P pwd nonceB i d) := by
  unfold encryptPassBytes
  dsimp only
  intro y hy
  rw [List.mem_flatten] at hy
  obtain ⟨c, hc, hyc⟩ := hy
  rw [List.mem_map] at hc
  obtain ⟨c0, _, he⟩ := hc
  rw [← he] at hyc
  exact bytes_xorEncryptBytes _ _ _ y hyc

theorem decryptPassBytes_encryptPassBytes (P : Prims) (pwd nonceB : List Nat)
    (i : Nat) (d : List Nat) (hP : PrimsWF P) (hn : Bytes nonceB)
    (hd : Bytes d) :
    decryptPassBytes P pwd nonceB i (encryptPassBytes P pwd nonceB i d) = d := by
  unfold decryptPassBytes encryptPassBytes
  dsimp only
  rw [length_flatten_map _ (fun c => length_xorEncryptBytes _ _ c),
    chunkList_flatten]
  have hs : 1 ≤ dynamicSizes d.length := by
    have := dynamicSizes_ge d.length
    omega
  rw [rechunk _ hs _ (fun c => length_xorEncryptBytes _ _ c) d, List.map_map]
  have hpoint : ∀ c ∈ chunkList (dynamicSizes d.length) d,
      (xorDecryptBytes nonceB (P.blake3 (pwd.take (min (i * 8) pwd.length))) ∘
        xorEncryptBytes nonceB (P.blake3 (pwd.take (min (i * 8) pwd.length)))) c = c := by
    intro c hc
    simp only [Function.comp_apply]
    exact xorDecryptBytes_xorEncryptBytes _ _ _ hn (hP.blake3_lt _)
      (fun x hx => hd x (chunkListGo_mem_subset _ _ _ c hc x hx))
  rw [map_eq_self _ _ hpoint, chunkList_flatten]

theorem encryptRoundsGo_ok (P : Prims) (pwd nonceB : List Nat) :
    ∀ (fuel i : Nat) (d : List Nat),
      encryptRoundsGo P pwd nonceB fuel i d = .ok (encPasses P pwd nonceB fuel i d) := by
  intro fuel
  induction fuel with
  | zero => intro i d; rfl
  | succ fuel ih =>
    intro i d
    simp only [encryptRoundsGo, encPasses, encryptPass_ok, Outcome.bind, ih]

theorem decryptRoundsGo_ok (P : Prims) (pwd nonceB : List Nat) :
    ∀ (fuel i : Nat) (d : List Nat),
      decryptRoundsGo P pwd nonceB fuel i d = .ok (decPasses P pwd nonceB fuel i d) := by
  intro fuel
  induction fuel with
  | zero => intro i d; rfl
  | succ fuel ih =>
    intro i d
    simp only [decryptRoundsGo, decPasses, decryptPass_ok, Outcome.bind, ih]

theorem length_encPasses (P : Prims) (pwd nonceB : List Nat) :
    ∀ (fuel i : Nat) (d : List Nat),
      (encPasses P pwd nonceB fuel i d).length = d.length := by
  intro fuel
  induction fuel with
  | zero => intro i d; rfl
  | succ fuel ih =>
    intro i d
    simp only [encPasses]
    rw [ih, length_encryptPassBytes]

theorem bytes_encPasses (P : Prims) (pwd nonceB : List Nat) :
    ∀ (fuel : Nat), 1 ≤ fuel → ∀ (i : Nat) (d : List Nat),
      Bytes (encPasses P pwd nonceB fuel i d) := by
  intro fuel
  induction fuel with
  | zero => intro h; omega
  | succ fuel ih =>
    intro _ i d
    simp only [encPasses]
    match fuel with
    | 0 => exact bytes_encryptPassBytes P pwd nonceB i d
    | fuel + 1 => exact ih (by omega) _ _

theorem encPasses_snoc (P : Prims) (pwd nonceB : List Nat) :
    ∀ (fuel i : Nat) (d : List Nat),
      encPasses P pwd nonceB (fuel + 1) i d =
        encryptPassBytes P pwd nonceB (i + fuel) (encPasses P pwd nonceB fuel i d) := by
  intro fuel
  induction fuel with
  | zero => intro i d; simp [encPasses]
  | succ fuel ih =>
    intro i d
    have step : encPasses P pwd nonceB (fuel + 1 + 1) i d =
        encPasses P pwd nonceB (fuel + 1) (i + 1) (encryptPassBytes P pwd nonceB i d) := rfl
    rw [step, ih]
    have : i + 1 + fuel = i + (fuel + 1) := by omega
    rw [this]
    rfl

theorem decPasses_encPasses (P : Prims) (pwd nonceB : List Nat)
    (hP : PrimsWF P) (hn : Bytes nonceB) :
    ∀ (fuel i : Nat) (d : List Nat), Bytes d →
      decPasses P pwd nonceB fuel (i + fuel - 1) (encPasses P pwd nonceB fuel i d) = d := by
  intro fuel
  induction fuel with
  | zero => intro i d _; rfl
  | succ fuel ih =>
    intro i d hd
    rw [encPasses_snoc]
    have hidx : i + (fuel + 1) - 1 = i + fuel := by omega
    rw [hidx]
    have step : ∀ e, decPasses P pwd nonceB (fuel + 1) (i + fuel) e =
        decPasses P pwd nonceB fuel (i + fuel - 1) (decryptPassBytes P pwd nonceB (i + fuel) e) := by
      intro e
      rfl
    have hbytes : Bytes (encPasses P pwd nonceB fuel i d) := by
      match fuel with
      | 0 => exact hd
      | fuel + 1 => exact bytes_encPasses P pwd nonceB (fuel + 1) (by omega) i d
    rw [step, decryptPassBytes_encryptPassBytes P pwd nonceB (i + fuel)
      (encPasses P pwd nonceB fuel i d) hP hn hbytes]
    match fuel with
    | 0 => rfl
    | fuel + 1 => exact ih i d hd

theorem decryptRounds_encryptRounds (P : Prims) (pwd nonceB : List Nat)
    (rounds : Nat) (d : List Nat) (hP : PrimsWF P) (hn : Bytes nonceB)
    (hd : Bytes d) :
    (encryptRounds P pwd nonceB rounds d).bind
      (fun e => decryptRounds P pwd nonceB rounds e) = .ok d := by
  unfold encryptRounds decryptRounds
  rw [encryptRoundsGo_ok]
  simp only [Outcome.bind]
  rw [decryptRoundsGo_ok]
  have h := decPasses_encPasses P pwd nonceB hP hn (rounds + 1) 0 d hd
  simp only [Nat.zero_add, Nat.add_sub_cancel] at h
  rw [h]

theorem derivePasswordKey_ok (P : Prims) (hP : PrimsWF P)
    (password nonceB : List Nat) (salt : Option Salt) :
    derivePasswordKey P (P.deriveKey password nonceB) nonceB salt =
      .ok (pwdKey P password nonceB salt) := by
  unfold derivePasswordKey pwdKey
  rw [if_pos (hP.deriveKey_len _ _)]

theorem VERSIONbytes_ne_nil : VERSIONbytes ≠ [] := by
  simp [VERSIONbytes]

theorem encrypt_ok (P : Prims) (hP : PrimsWF P) (password data : List Nat)
    (nonce : NonceData) (cfg : Config) (customSalt : Option Salt)
    (wrapAll : Bool) (hd : data ≠ []) (hdev : cfg.device = .Cpu) :
    encrypt P password data nonce cfg customSalt wrapAll =
      .ok (encBlob P password data nonce.asBytes cfg customSalt wrapAll) := by
  unfold encrypt
  dsimp only
  rw [derivePasswordKey_ok P hP]
  simp only [Outcome.bind]
  rw [xorEncrypt_eq_ok _ _ _ VERSIONbytes_ne_nil]
  simp only [Outcome.bind, sBytes, mixBlocks, triangleMixColumns]
  rw [show autoDynamicChunkShift P
      (triangleMixColumnsPure cfg.gfPoly.value
        (mixBlocksPure P
          (sBytesPure data
            (generateDynamicSbox P nonce.asBytes (pwdKey P password nonce.asBytes customSalt) cfg))
          nonce.asBytes (pwdKey P password nonce.asBytes customSalt)))
      nonce.asBytes (pwdKey P password nonce.asBytes customSalt) cfg =
      dynamicShift P
        (triangleMixColumnsPure cfg.gfPoly.value
          (mixBlocksPure P
            (sBytesPure data
              (generateDynamicSbox P nonce.asBytes (pwdKey P password nonce.asBytes customSalt) cfg))
            nonce.asBytes (pwdKey P password nonce.asBytes customSalt)))
        nonce.asBytes (pwdKey P password nonce.asBytes customSalt) cfg from by
    unfold autoDynamicChunkShift
    rw [hdev]]
  simp only [dynamicShift, Outcome.bind, sBytes]
  unfold encryptRounds
  rw [encryptRoundsGo_ok]
  simp only [Outcome.bind]
  rw [xorEncrypt_eq_ok _ _ _ hd]
  simp only [Outcome.bind]
  rfl

theorem length_encBodyBytes (P : Prims) (pwd nonceB data : List Nat)
    (cfg : Config) : (encBodyBytes P pwd nonceB data cfg).length = data.length := by
  unfold encBodyBytes
  dsimp only
  rw [length_encPasses, length_sBytesPure, length_dynamicShiftPure,
    length_triangleMixColumnsPure, length_mixBlocksPure, length_sBytesPure]

theorem length_encBlob (P : Prims) (hP : PrimsWF P)
    (password data nonceB : List Nat) (cfg : Config)
    (customSalt : Option Salt) (wrapAll : Bool) (hnlen : nonceB.length = 32)
    (hsalt : ∀ cs, customSalt = some cs → cs.asBytes.length = 32) :
    (encBlob P password data nonceB cfg customSalt wrapAll).length =
      (if wrapAll then 32 else 0) + 16 + data.length + 64 +
        (if wrapAll then 32 else 0) := by
  unfold encBlob
  dsimp only
  simp only [List.length_append]
  rw [length_xorEncryptBytes, length_encBodyBytes, hP.sha3_len]
  have hv : VERSIONbytes.length = 16 := by decide
  rw [hv]
  match wrapAll, customSalt with
  | false, _ => simp
  | true, none => simp [hnlen, wrapSuffix]
  | true, some cs =>
    have h32 := hsalt cs rfl
    simp [hnlen, h32, wrapSuffix]

theorem decryptRounds_encPasses (P : Prims) (pwd nonceB : List Nat)
    (rounds : Nat) (X : List Nat) (hP : PrimsWF P) (hn : Bytes nonceB)
    (hX : Bytes X) :
    decryptRounds P pwd nonceB rounds (encPasses P pwd nonceB (rounds + 1) 0 X) =
      .ok X := by
  unfold decryptRounds
  rw [decryptRoundsGo_ok]
  have h := decPasses_encPasses P pwd nonceB hP hn (rounds + 1) 0 X hX
  simp only [Nat.zero_add, Nat.add_sub_cancel] at h
  rw [h]

theorem decrypt_encBlob (P : Prims) (hP : PrimsWF P) (password data : List Nat)
    (nonce : NonceData) (cfg : Config) (customSalt : Option Salt) (wrapAll : Bool)
    (hd : data ≠ []) (hdb : Bytes data)
    (hnlen : nonce.asBytes.length = 32) (hnb : Bytes nonce.asBytes)
    (hsalt : ∀ cs, customSalt = some cs → cs.asBytes.length = 32)
    (hdev : cfg.device = .Cpu) (hpoly : cfg.gfPoly.value = 27)
    (hv2 : hasPrefixB VERSION2bytes
      (xorDecryptBytes nonce.asBytes (pwdKey P password nonce.asBytes customSalt)
        (xorEncryptBytes nonce.asBytes (P.blake3 atomCryptePasswordBytes) VERSIONbytes)) = false) :
    decrypt P password (encBlob P password data nonce.asBytes cfg customSalt wrapAll)
      (some nonce) cfg customSalt wrapAll = .ok data := by
  have hL : 1 ≤ data.length := by
    cases data
    · simp at hd
    · simp
  have hbloblen := length_encBlob P hP password data nonce.asBytes cfg customSalt
    wrapAll hnlen hsalt
  unfold decrypt decryptBody
  dsimp only
  rw [derivePasswordKey_ok P hP]
  simp only [Outcome.bind]
  have hver : verifyKeysConstantTime (pwdKey P password nonce.asBytes customSalt)
      (pwdKey P password nonce.asBytes customSalt) = true := by
    simp [verifyKeysConstantTime]
  rw [hver]
  simp only [not_true, if_false, ite_false, if_neg (by trivial : ¬False)]
  have hVBlen : VERSIONbytes.length = 16 := by decide
  have hVB : Bytes VERSIONbytes := by
    intro b hb
    have h2 := List.all_eq_true.mp (by decide :
      VERSIONbytes.all (fun b => decide (b < 256)) = true) b hb
    exact of_decide_eq_true h2
  have hkv : Bytes (P.blake3 atomCryptePasswordBytes) := hP.blake3_lt _
  have hencVerLen : (xorEncryptBytes nonce.asBytes
      (P.blake3 atomCryptePasswordBytes) VERSIONbytes).length = 16 := by
    rw [length_xorEncryptBytes]
    exact hVBlen
  have hencVerNe : xorEncryptBytes nonce.asBytes
      (P.blake3 atomCryptePasswordBytes) VERSIONbytes ≠ [] := by
    intro he
    rw [he] at hencVerLen
    simp at hencVerLen
  have hverdec : xorDecryptBytes nonce.asBytes (P.blake3 atomCryptePasswordBytes)
      (xorEncryptBytes nonce.asBytes (P.blake3 atomCryptePasswordBytes) VERSIONbytes) =
      VERSIONbytes := xorDecryptBytes_xorEncryptBytes _ _ _ hnb hkv hVB
  have hbody_len : (encBodyBytes P (pwdKey P password nonce.asBytes customSalt)
      nonce.asBytes data cfg).length = data.length := length_encBodyBytes _ _ _ _ _
  have hbody_bytes : Bytes (encBodyBytes P (pwdKey P password nonce.asBytes customSalt)
      nonce.asBytes data cfg) := by
    unfold encBodyBytes
    dsimp only
    exact bytes_encPasses _ _ _ _ (by omega) _ _
  have havp : hasPrefixB atomVersionPrefixBytes VERSIONbytes = true := by decide
  have hv2v : hasPrefixB VERSION2bytes VERSIONbytes = false := by decide
  have hv3v : hasPrefixB VERSIONbytes VERSIONbytes = true := by decide
  have hSB := sboxOK_generateDynamicSbox P nonce.asBytes
    (pwdKey P password nonce.asBytes customSalt) cfg
  have hW : Bytes (sBytesPure data
      (generateDynamicSbox P nonce.asBytes (pwdKey P password nonce.asBytes customSalt) cfg)) :=
    bytes_sBytesPure _ _ hSB
  have hZ : Bytes (mixBlocksPure P (sBytesPure data
      (generateDynamicSbox P nonce.asBytes (pwdKey P password nonce.asBytes customSalt) cfg))
      nonce.asBytes (pwdKey P password nonce.asBytes customSalt)) :=
    bytes_mixBlocksPure _ _ _ _ hW
  have hY : Bytes (triangleMixColumnsPure 27 (mixBlocksPure P (sBytesPure data
      (generateDynamicSbox P nonce.asBytes (pwdKey P password nonce.asBytes customSalt) cfg))
      nonce.asBytes (pwdKey P password nonce.asBytes customSalt))) :=
    bytes_triangleMixColumnsPure _ _ hZ
  have hS1 : decryptRounds P (pwdKey P password nonce.asBytes customSalt) nonce.asBytes
      cfg.rounds (encBodyBytes P (pwdKey P password nonce.asBytes customSalt)
        nonce.asBytes data cfg) =
      .ok (sBytesPure (dynamicShiftPure P (triangleMixColumnsPure 27
        (mixBlocksPure P (sBytesPure data
          (generateDynamicSbox P nonce.asBytes (pwdKey P password nonce.asBytes customSalt) cfg))
          nonce.asBytes (pwdKey P password nonce.asBytes customSalt)))
        nonce.asBytes (pwdKey P password nonce.asBytes customSalt))
        (generateDynamicSbox P nonce.asBytes (pwdKey P password nonce.asBytes customSalt) cfg)) := by
    unfold encBodyBytes
    dsimp only
    rw [hpoly]
    exact decryptRounds_encPasses P _ _ _ _ hP hnb (bytes_sBytesPure _ _ hSB)
  cases wrapAll with
  | false =>
    simp only [Bool.not_false, Bool.and_true] at *
    simp at hbloblen
    rw [if_neg (by rw [hVBlen]; omega)]
    have hblob : encBlob P password data nonce.asBytes cfg customSalt false =
        xorEncryptBytes nonce.asBytes (P.blake3 atomCryptePasswordBytes) VERSIONbytes ++
          (encBodyBytes P (pwdKey P password nonce.asBytes customSalt) nonce.asBytes data cfg ++
            P.sha3 (encBodyBytes P (pwdKey P password nonce.asBytes customSalt) nonce.asBytes data cfg ++
              P.blake3 (xorEncryptBytes nonce.asBytes (pwdKey P password nonce.asBytes customSalt) data))) := by
      unfold encBlob
      dsimp only
      simp [List.append_assoc]
    rw [hblob]
    rw [show VERSIONbytes.length = 16 from hVBlen]
    rw [take_append_exact _ _ _ hencVerLen, drop_append_exact _ _ _ hencVerLen]
    simp only [ite_true]
    rw [xorDecrypt_eq_ok _ _ _ hencVerNe]
    simp only [Outcome.bind]
    rw [hverdec]
    rw [xorDecrypt_eq_ok _ _ _ hencVerNe]
    simp only [Outcome.bind]
    rw [havp]
    simp only [Bool.not_true, Bool.false_and]
    rw [if_neg (by simp)]
    have hsplit : splitBody
        (encBodyBytes P (pwdKey P password nonce.asBytes customSalt) nonce.asBytes data cfg ++
          P.sha3 (encBodyBytes P (pwdKey P password nonce.asBytes customSalt) nonce.asBytes data cfg ++
            P.blake3 (xorEncryptBytes nonce.asBytes (pwdKey P password nonce.asBytes customSalt) data)))
        VERSIONbytes
        (xorDecryptBytes nonce.asBytes (pwdKey P password nonce.asBytes customSalt)
          (xorEncryptBytes nonce.asBytes (P.blake3 atomCryptePasswordBytes) VERSIONbytes))
        false =
        .ok (encBodyBytes P (pwdKey P password nonce.asBytes customSalt) nonce.asBytes data cfg,
          P.sha3 (encBodyBytes P (pwdKey P password nonce.asBytes customSalt) nonce.asBytes data cfg ++
            P.blake3 (xorEncryptBytes nonce.asBytes (pwdKey P password nonce.asBytes customSalt) data))) := by
      unfold splitBody
      rw [hv2, hv3v]
      simp only [Bool.and_false, Bool.false_eq_true, if_false]
      have hrl : (encBodyBytes P (pwdKey P password nonce.asBytes customSalt) nonce.asBytes data cfg ++
          P.sha3 (encBodyBytes P (pwdKey P password nonce.asBytes customSalt) nonce.asBytes data cfg ++
            P.blake3 (xorEncryptBytes nonce.asBytes (pwdKey P password nonce.asBytes customSalt) data))).length =
          data.length + 64 := by
        rw [List.length_append, hbody_len, hP.sha3_len]
      rw [if_neg (by rw [hrl]; omega), hrl]
      have h64 : data.length + 64 - 64 = data.length := by omega
      rw [h64, take_append_exact _ _ _ hbody_len, drop_append_exact _ _ _ hbody_len]
    rw [hsplit]
    simp only [Outcome.bind]
    dsimp only
    rw [hS1]
    simp only [Outcome.bind]
    simp only [inSBytes, Outcome.bind]
    rw [inSBytesPure_sBytesPure P _ _ _ _ (bytes_dynamicShiftPure P _ _ _ hP)]
    rw [show autoDynamicChunkUnshift P
        (dynamicShiftPure P (triangleMixColumnsPure 27
          (mixBlocksPure P (sBytesPure data
            (generateDynamicSbox P nonce.asBytes (pwdKey P password nonce.asBytes customSalt) cfg))
            nonce.asBytes (pwdKey P password nonce.asBytes customSalt)))
          nonce.asBytes (pwdKey P password nonce.asBytes customSalt))
        nonce.asBytes (pwdKey P password nonce.asBytes customSalt) cfg =
        dynamicUnshift P
        (dynamicShiftPure P (triangleMixColumnsPure 27
          (mixBlocksPure P (sBytesPure data
            (generateDynamicSbox P nonce.asBytes (pwdKey P password nonce.asBytes customSalt) cfg))
            nonce.asBytes (pwdKey P password nonce.asBytes customSalt)))
          nonce.asBytes (pwdKey P password nonce.asBytes customSalt))
        nonce.asBytes (pwdKey P password nonce.asBytes customSalt) cfg from by
      unfold autoDynamicChunkUnshift
      rw [hdev]]
    simp only [dynamicUnshift, Outcome.bind]
    rw [dynamicUnshiftPure_dynamicShiftPure P _ _ _ hY]
    rw [hpoly]
    simp only [inverseTriangleMixColumns, Outcome.bind]
    rw [inverseTriangle_triangle_aes _ hZ]
    simp only [unmixBlocks, Outcome.bind]
    rw [unmixBlocksPure_mixBlocksPure P _ _ _ hP hW]
    rw [inSBytesPure_sBytesPure P data _ _ _ hdb]
    rw [hv2v]
    simp only [Bool.false_eq_true, if_false]
    rw [xorEncrypt_eq_ok _ _ _ hd]
    simp only [Outcome.bind]
    simp
  | true =>
    simp only [Bool.not_true, Bool.and_false] at *
    simp at hbloblen
    rw [if_neg (by rw [hVBlen]; omega)]
    have hsfx_len : (wrapSuffix customSalt nonce.asBytes).length = 32 := by
      cases customSalt with
      | none => exact hnlen
      | some cs => exact hsalt cs rfl
    have hmac_len : (P.sha3 (encBodyBytes P (pwdKey P password nonce.asBytes customSalt)
        nonce.asBytes data cfg ++
        P.blake3 (xorEncryptBytes nonce.asBytes (pwdKey P password nonce.asBytes customSalt) data))).length = 64 :=
      hP.sha3_len _
    have hblob : encBlob P password data nonce.asBytes cfg customSalt true =
        nonce.asBytes ++
          (xorEncryptBytes nonce.asBytes (P.blake3 atomCryptePasswordBytes) VERSIONbytes ++
            (encBodyBytes P (pwdKey P password nonce.asBytes customSalt) nonce.asBytes data cfg ++
              (P.sha3 (encBodyBytes P (pwdKey P password nonce.asBytes customSalt) nonce.asBytes data cfg ++
                P.blake3 (xorEncryptBytes nonce.asBytes (pwdKey P password nonce.asBytes customSalt) data)) ++
                wrapSuffix customSalt nonce.asBytes))) := by
      unfold encBlob
      dsimp only
      simp [List.append_assoc]
    rw [hblob]
    rw [drop_append_exact _ _ _ hnlen]
    rw [show VERSIONbytes.length = 16 from hVBlen]
    rw [take_append_exact _ _ _ hencVerLen, drop_append_exact _ _ _ hencVerLen]
    simp only [Bool.false_eq_true, if_false]
    rw [xorDecrypt_eq_ok _ _ _ hencVerNe]
    simp only [Outcome.bind]
    rw [hverdec]
    rw [xorDecrypt_eq_ok _ _ _ hencVerNe]
    simp only [Outcome.bind]
    rw [havp]
    simp only [Bool.not_true, Bool.false_and]
    rw [if_neg (by simp)]
    have hsplitT : splitBody
        (encBodyBytes P (pwdKey P password nonce.asBytes customSalt) nonce.asBytes data cfg ++
          (P.sha3 (encBodyBytes P (pwdKey P password nonce.asBytes customSalt) nonce.asBytes data cfg ++
            P.blake3 (xorEncryptBytes nonce.asBytes (pwdKey P password nonce.asBytes customSalt) data)) ++
            wrapSuffix customSalt nonce.asBytes))
        VERSIONbytes
        (xorDecryptBytes nonce.asBytes (pwdKey P password nonce.asBytes customSalt)
          (xorEncryptBytes nonce.asBytes (P.blake3 atomCryptePasswordBytes) VERSIONbytes))
        (!false) =
        .ok (encBodyBytes P (pwdKey P password nonce.asBytes customSalt) nonce.asBytes data cfg,
          P.sha3 (encBodyBytes P (pwdKey P password nonce.asBytes customSalt) nonce.asBytes data cfg ++
            P.blake3 (xorEncryptBytes nonce.asBytes (pwdKey P password nonce.asBytes customSalt) data))) := by
      unfold splitBody
      rw [hv2, hv3v]
      simp only [Bool.false_eq_true, if_false, Bool.not_false, Bool.and_true, if_true]
      have hrl : (encBodyBytes P (pwdKey P password nonce.asBytes customSalt) nonce.asBytes data cfg ++
          (P.sha3 (encBodyBytes P (pwdKey P password nonce.asBytes customSalt) nonce.asBytes data cfg ++
            P.blake3 (xorEncryptBytes nonce.asBytes (pwdKey P password nonce.asBytes customSalt) data)) ++
            wrapSuffix customSalt nonce.asBytes)).length = data.length + 96 := by
        simp only [List.length_append]
        rw [hbody_len, hmac_len, hsfx_len]
      rw [if_neg (by rw [hrl]; omega), hrl]
      have h96 : data.length + 96 - 96 = data.length := by omega
      rw [h96, take_append_exact _ _ _ hbody_len, drop_append_exact _ _ _ hbody_len,
        take_append_exact _ _ _ hmac_len]
    rw [hsplitT]
    simp only [Outcome.bind]
    dsimp only
    rw [hS1]
    simp only [Outcome.bind]
    simp only [inSBytes, Outcome.bind]
    rw [inSBytesPure_sBytesPure P _ _ _ _ (bytes_dynamicShiftPure P _ _ _ hP)]
    rw [show autoDynamicChunkUnshift P
        (dynamicShiftPure P (triangleMixColumnsPure 27
          (mixBlocksPure P (sBytesPure data
            (generateDynamicSbox P nonce.asBytes (pwdKey P password nonce.asBytes customSalt) cfg))
            nonce.asBytes (pwdKey P password nonce.asBytes customSalt)))
          nonce.asBytes (pwdKey P password nonce.asBytes customSalt))
        nonce.asBytes (pwdKey P password nonce.asBytes customSalt) cfg =
        dynamicUnshift P
        (dynamicShiftPure P (triangleMixColumnsPure 27
          (mixBlocksPure P (sBytesPure data
            (generateDynamicSbox P nonce.asBytes (pwdKey P password nonce.asBytes customSalt) cfg))
            nonce.asBytes (pwdKey P password nonce.asBytes customSalt)))
          nonce.asBytes (pwdKey P password nonce.asBytes customSalt))
        nonce.asBytes (pwdKey P password nonce.asBytes customSalt) cfg from by
      unfold autoDynamicChunkUnshift
      rw [hdev]]
    simp only [dynamicUnshift, Outcome.bind]
    rw [dynamicUnshiftPure_dynamicShiftPure P _ _ _ hY]
    rw [hpoly]
    simp only [inverseTriangleMixColumns, Outcome.bind]
    rw [inverseTriangle_triangle_aes _ hZ]
    simp only [unmixBlocks, Outcome.bind]
    rw [unmixBlocksPure_mixBlocksPure P _ _ _ hP hW]
    rw [inSBytesPure_sBytesPure P data _ _ _ hdb]
    rw [hv2v]
    simp only [Bool.false_eq_true, if_false]
    rw [xorEncrypt_eq_ok _ _ _ hd]
    simp only [Outcome.bind]
    simp

theorem mulSpec_eq (poly a b : Nat) : mulSpec poly a b =
    if a = 0 ∨ b = 0 then 0
    else (if b % 2 = 1 then a % 256 else 0) ^^^ mulSpec poly (shiftA poly a) (b / 2) := by
  rw [mulSpec]

theorem mulSpec_zero_right (poly a : Nat) : mulSpec poly a 0 = 0 := by
  rw [mulSpec_eq]
  simp

theorem mulSpec_zero_left (poly b : Nat) : mulSpec poly 0 b = 0 := by
  rw [mulSpec_eq]
  simp

theorem mulSpec_ne (poly a b : Nat) (ha : a ≠ 0) (hb : b ≠ 0) :
    mulSpec poly a b =
      (if b % 2 = 1 then a % 256 else 0) ^^^ mulSpec poly (shiftA poly a) (b / 2) := by
  rw [mulSpec_eq]
  simp [ha, hb]

theorem mulSpec_lt_aux (poly : Nat) : ∀ n a b, b ≤ n → mulSpec poly a b < 256 := by
  intro n
  induction n with
  | zero =>
    intro a b h
    have hb : b = 0 := by omega
    subst hb
    rw [mulSpec_zero_right]
    norm_num
  | succ n ih =>
    intro a b h
    rw [mulSpec_eq]
    by_cases h0 : a = 0 ∨ b = 0
    · rw [if_pos h0]
      norm_num
    · rw [if_neg h0]
      push_neg at h0
      refine xor_lt_256 ?_ (ih _ _ (by omega))
      split
      · exact Nat.mod_lt _ (by norm_num)
      · norm_num

theorem mulSpec_lt (poly a b : Nat) : mulSpec poly a b < 256 :=
  mulSpec_lt_aux poly b a b le_rfl

theorem gfMulGo_eq_mulSpec (poly : Nat) : ∀ fuel p a b, b < fuel →
    gfMulGo poly fuel p a b = p ^^^ mulSpec poly a b := by
  intro fuel
  induction fuel with
  | zero =>
    intro p a b h
    exact absurd h (Nat.not_lt_zero b)
  | succ fuel ih =>
    intro p a b h
    simp only [gfMulGo]
    by_cases h0 : a = 0 ∨ b = 0
    · rw [if_pos h0, mulSpec_eq, if_pos h0, Nat.xor_zero]
    · rw [if_neg h0]
      push_neg at h0
      have hb2 : b / 2 < fuel := by omega
      rw [ih _ _ _ hb2, mulSpec_ne poly a b h0.1 h0.2]
      rw [show (if a &&& 0x80 ≠ 0 then a * 2 % 65536 ^^^ poly else a * 2 % 65536) =
        shiftA poly a from rfl]
      rcases Nat.mod_two_eq_zero_or_one b with h2 | h2
      · rw [h2]
        norm_num
      · rw [h2]
        simp [Nat.xor_assoc]

theorem gfMul_eq_mulSpec (poly a b : Nat) :
    gfMul poly a b = mulSpec poly (a % 256) (b % 256) := by
  unfold gfMul
  rw [gfMulGo_eq_mulSpec poly _ _ _ _ (Nat.lt_succ_self _), Nat.zero_xor]

theorem xor_left_comm_nat (a b c : Nat) : a ^^^ (b ^^^ c) = b ^^^ (a ^^^ c) := by
  rw [← Nat.xor_assoc, Nat.xor_comm a b, Nat.xor_assoc]

theorem xor_cancel_pair (k x y : Nat) : (k ^^^ x) ^^^ (k ^^^ y) = x ^^^ y := by
  rw [Nat.xor_assoc, xor_left_comm_nat x k y, ← Nat.xor_assoc, Nat.xor_self, Nat.zero_xor]

theorem mulSpec_xor_aux (poly : Nat) : ∀ n a b c, b + c ≤ n →
    mulSpec poly a (b ^^^ c) = mulSpec poly a b ^^^ mulSpec poly a c := by
  intro n
  induction n with
  | zero =>
    intro a b c h
    have hb : b = 0 := by omega
    have hc : c = 0 := by omega
    subst hb
    subst hc
    simp [mulSpec_zero_right]
  | succ n ih =>
    intro a b c h
    by_cases ha : a = 0
    · subst ha
      simp [mulSpec_zero_left]
    by_cases hb0 : b = 0
    · subst hb0
      simp [mulSpec_zero_right, Nat.zero_xor]
    by_cases hc0 : c = 0
    · subst hc0
      simp [mulSpec_zero_right, Nat.xor_zero]
    by_cases hbc : b ^^^ c = 0
    · rw [hbc]
      have hbceq : b = c := Nat.xor_eq_zero.mp hbc
      subst hbceq
      rw [mulSpec_zero_right, Nat.xor_self]
    rw [mulSpec_ne poly a _ ha hbc, mulSpec_ne poly a b ha hb0,
      mulSpec_ne poly a c ha hc0, Nat.xor_div_two,
      ih (shiftA poly a) (b / 2) (c / 2) (by omega)]
    rcases Nat.mod_two_eq_zero_or_one b with hb2 | hb2 <;>
      rcases Nat.mod_two_eq_zero_or_one c with hc2 | hc2
    · have hbc2 : (b ^^^ c) % 2 = 0 := by
        rw [Nat.xor_mod_two_eq]
        omega
      rw [hb2, hc2, hbc2]
      norm_num
    · have hbc2 : (b ^^^ c) % 2 = 1 := by
        rw [Nat.xor_mod_two_eq]
        omega
      rw [hb2, hc2, hbc2]
      norm_num
      rw [xor_left_comm_nat]
    · have hbc2 : (b ^^^ c) % 2 = 1 := by
        rw [Nat.xor_mod_two_eq]
        omega
      rw [hb2, hc2, hbc2]
      norm_num
      rw [Nat.xor_assoc]
    · have hbc2 : (b ^^^ c) % 2 = 0 := by
        rw [Nat.xor_mod_two_eq]
        omega
      rw [hb2, hc2, hbc2]
      norm_num
      rw [xor_cancel_pair]

theorem isLinear_mulSpec (poly a : Nat) : IsLinear (fun b => mulSpec poly a b) :=
  ⟨mulSpec_zero_right poly a, fun x y => mulSpec_xor_aux poly (x + y) a x y le_rfl⟩

theorem two_pow_xor_add (n lo : Nat) (h : lo < 2 ^ n) : 2 ^ n ^^^ lo = 2 ^ n + lo := by
  apply Nat.eq_of_testBit_eq
  intro i
  rcases Nat.lt_trichotomy i n with hi | hi | hi
  · rw [Nat.testBit_xor, Nat.testBit_two_pow_of_ne (by omega), Nat.testBit_two_pow_add_gt hi]
    simp
  · subst hi
    rw [Nat.testBit_xor, Nat.testBit_two_pow_self, Nat.testBit_two_pow_add_eq,
      Nat.testBit_lt_two_pow h]
    rfl
  · have h1 : lo < 2 ^ i :=
      lt_of_lt_of_le h (Nat.pow_le_pow_right (by norm_num) (le_of_lt hi))
    have h2 : 2 ^ n + lo < 2 ^ i := by
      have hs : 2 ^ n + 2 ^ n ≤ 2 ^ i := by
        have : 2 ^ (n + 1) ≤ 2 ^ i := Nat.pow_le_pow_right (by norm_num) hi
        rw [pow_succ] at this
        omega
      omega
    rw [Nat.testBit_xor, Nat.testBit_two_pow_of_ne (by omega), Nat.testBit_lt_two_pow h1,
      Nat.testBit_lt_two_pow h2]
    rfl

theorem combineBits_succ (f : Nat → Nat) (n d : Nat) :
    combineBits f (n + 1) d =
      if d.testBit n then combineBits f n d ^^^ f (2 ^ n) else combineBits f n d := by
  unfold combineBits
  rw [List.range_succ, List.foldl_append, List.foldl_cons, List.foldl_nil]

theorem combineBits_congrBits (f : Nat → Nat) :
    ∀ n d e, (∀ i, i < n → d.testBit i = e.testBit i) →
      combineBits f n d = combineBits f n e := by
  intro n
  induction n with
  | zero => intro d e h; rfl
  | succ n ih =>
    intro d e h
    rw [combineBits_succ, combineBits_succ, h n (Nat.lt_succ_self n),
      ih d e (fun i hi => h i (by omega))]

theorem combineBits_congrF :
    ∀ (n d : Nat) (f g : Nat → Nat), (∀ i, i < n → f (2 ^ i) = g (2 ^ i)) →
      combineBits f n d = combineBits g n d := by
  intro n
  induction n with
  | zero => intro d f g h; rfl
  | succ n ih =>
    intro d f g h
    rw [combineBits_succ, combineBits_succ, h n (Nat.lt_succ_self n),
      ih d f g (fun i hi => h i (by omega))]

theorem IsLinear.combine (f : Nat → Nat) (hf : IsLinear f) :
    ∀ n d, d < 2 ^ n → f d = combineBits f n d := by
  intro n
  induction n with
  | zero =>
    intro d h
    have h1 : (2 : Nat) ^ 0 = 1 := rfl
    rw [h1] at h
    have hd : d = 0 := by omega
    subst hd
    rw [hf.1]
    rfl
  | succ n ih =>
    intro d h
    rw [combineBits_succ]
    by_cases hd : d < 2 ^ n
    · rw [Nat.testBit_lt_two_pow hd]
      simp only [Bool.false_eq_true, if_false]
      exact ih d hd
    · push_neg at hd
      have hlo : d - 2 ^ n < 2 ^ n := by
        have h2 : 2 ^ (n + 1) = 2 ^ n + 2 ^ n := by
          rw [pow_succ]
          omega
        omega
      have hd2 : d = 2 ^ n ^^^ (d - 2 ^ n) := by
        rw [two_pow_xor_add n _ hlo]
        omega
      have htb : d.testBit n = true := by
        rw [hd2, Nat.testBit_xor, Nat.testBit_two_pow_self, Nat.testBit_lt_two_pow hlo]
        rfl
      rw [htb]
      simp only [if_true]
      have hcong : combineBits f n d = combineBits f n (d - 2 ^ n) := by
        refine combineBits_congrBits f n d (d - 2 ^ n) (fun i hi => ?_)
        conv_lhs => rw [hd2]
        rw [Nat.testBit_xor, Nat.testBit_two_pow_of_ne (by omega)]
        simp
      calc f d = f (2 ^ n ^^^ (d - 2 ^ n)) := by rw [← hd2]
        _ = f (2 ^ n) ^^^ f (d - 2 ^ n) := hf.2 _ _
        _ = f (2 ^ n) ^^^ combineBits f n (d - 2 ^ n) := by rw [ih _ hlo]
        _ = combineBits f n d ^^^ f (2 ^ n) := by rw [hcong, Nat.xor_comm]

theorem isLinear_id : IsLinear (fun d => d) :=
  ⟨rfl, fun _ _ => rfl⟩

theorem invaes_lt : ∀ a, a < 256 → INVAES.getD a 0 < 256 := by decide

theorem invaes_pos : ∀ a, a < 256 → a ≠ 0 → 1 ≤ INVAES.getD a 0 := by decide

theorem invaes_mul : ∀ a, a < 256 → a ≠ 0 → gfMul 27 a (INVAES.getD a 0) = 1 := by decide

theorem invaes_basis : ∀ a, a < 256 → a ≠ 0 → ∀ i, i < 8 →
    gfMul 27 (INVAES.getD a 0) (gfMul 27 a (2 ^ i)) = 2 ^ i := by decide

theorem gfMul_inv_unique (a b : Nat) (ha : a < 256) (ha0 : a ≠ 0) (hb : b < 256)
    (h : gfMul 27 a b = 1) : b = INVAES.getD a 0 := by
  have hvlt : INVAES.getD a 0 < 256 := invaes_lt a ha
  have hv1 : gfMul 27 a (INVAES.getD a 0) = 1 := invaes_mul a ha ha0
  have ham : a % 256 = a := Nat.mod_eq_of_lt ha
  have hbm : b % 256 = b := Nat.mod_eq_of_lt hb
  have hvm : INVAES.getD a 0 % 256 = INVAES.getD a 0 := Nat.mod_eq_of_lt hvlt
  have hMb : mulSpec 27 a b = 1 := by
    have he := gfMul_eq_mulSpec 27 a b
    rw [ham, hbm] at he
    rw [← he]
    exact h
  have hMv : mulSpec 27 a (INVAES.getD a 0) = 1 := by
    have he := gfMul_eq_mulSpec 27 a (INVAES.getD a 0)
    rw [ham, hvm] at he
    rw [← he]
    exact hv1
  have hMd : mulSpec 27 a (b ^^^ INVAES.getD a 0) = 0 := by
    rw [mulSpec_xor_aux 27 (b + INVAES.getD a 0) a b (INVAES.getD a 0) le_rfl,
      hMb, hMv, Nat.xor_self]
  have hG : IsLinear (fun x => mulSpec 27 (INVAES.getD a 0) (mulSpec 27 a x)) := by
    constructor
    · show mulSpec 27 (INVAES.getD a 0) (mulSpec 27 a 0) = 0
      rw [mulSpec_zero_right, mulSpec_zero_right]
    · intro x y
      show mulSpec 27 (INVAES.getD a 0) (mulSpec 27 a (x ^^^ y)) =
        mulSpec 27 (INVAES.getD a 0) (mulSpec 27 a x) ^^^
          mulSpec 27 (INVAES.getD a 0) (mulSpec 27 a y)
      rw [mulSpec_xor_aux 27 (x + y) a x y le_rfl,
        mulSpec_xor_aux 27 (mulSpec 27 a x + mulSpec 27 a y) (INVAES.getD a 0)
          (mulSpec 27 a x) (mulSpec 27 a y) le_rfl]
  have hGbasis : ∀ i, i < 8 →
      mulSpec 27 (INVAES.getD a 0) (mulSpec 27 a (2 ^ i)) = 2 ^ i := by
    intro i hi
    have h128 : (2 : Nat) ^ 7 = 128 := by norm_num
    have hle : (2 : Nat) ^ i ≤ 2 ^ 7 := Nat.pow_le_pow_right (by norm_num) (by omega)
    have hb8 : (2 : Nat) ^ i < 256 := by omega
    have h1 := invaes_basis a ha ha0 i hi
    rw [gfMul_eq_mulSpec 27 a (2 ^ i), ham, Nat.mod_eq_of_lt hb8] at h1
    rw [gfMul_eq_mulSpec 27 (INVAES.getD a 0) _, hvm,
      Nat.mod_eq_of_lt (mulSpec_lt 27 a (2 ^ i))] at h1
    exact h1
  have hd : b ^^^ INVAES.getD a 0 < 256 := xor_lt_256 hb hvlt
  have hd8 : b ^^^ INVAES.getD a 0 < 2 ^ 8 := by
    have h256 : (2 : Nat) ^ 8 = 256 := by norm_num
    omega
  have e2 : mulSpec 27 (INVAES.getD a 0) (mulSpec 27 a (b ^^^ INVAES.getD a 0)) =
      combineBits (fun x => mulSpec 27 (INVAES.getD a 0) (mulSpec 27 a x)) 8
        (b ^^^ INVAES.getD a 0) :=
    IsLinear.combine _ hG 8 (b ^^^ INVAES.getD a 0) hd8
  have e3 : b ^^^ INVAES.getD a 0 =
      combineBits (fun d => d) 8 (b ^^^ INVAES.getD a 0) :=
    IsLinear.combine _ isLinear_id 8 (b ^^^ INVAES.getD a 0) hd8
  have hcong := combineBits_congrF 8 (b ^^^ INVAES.getD a 0)
    (fun x => mulSpec 27 (INVAES.getD a 0) (mulSpec 27 a x)) (fun d => d)
    (fun i hi => hGbasis i hi)
  have e1 : mulSpec 27 (INVAES.getD a 0) (mulSpec 27 a (b ^^^ INVAES.getD a 0)) = 0 := by
    rw [hMd, mulSpec_zero_right]
  have hzero : b ^^^ INVAES.getD a 0 = 0 := by
    rw [e3, ← hcong, ← e2, e1]
  exact Nat.xor_eq_zero.mp hzero

theorem foldl_pick_keep (P : Nat → Prop) [DecidablePred P] (v : Nat) :
    ∀ l : List Nat, (∀ j ∈ l, P j → j = v) →
      l.foldl (fun acc j => if P j then j else acc) v = v := by
  intro l
  induction l with
  | nil => intro h; rfl
  | cons a l ih =>
    intro h
    simp only [List.foldl_cons]
    by_cases hpa : P a
    · rw [if_pos hpa, h a (by simp) hpa]
      exact ih (fun j hj hpj => h j (by simp [hj]) hpj)
    · rw [if_neg hpa]
      exact ih (fun j hj hpj => h j (by simp [hj]) hpj)

theorem foldl_pick_unique (P : Nat → Prop) [DecidablePred P] (v : Nat) :
    ∀ (l : List Nat) (acc : Nat), v ∈ l → P v → (∀ j ∈ l, P j → j = v) →
      l.foldl (fun acc j => if P j then j else acc) acc = v := by
  intro l
  induction l with
  | nil =>
    intro acc hv _ _
    simp at hv
  | cons a l ih =>
    intro acc hv hPv h
    simp only [List.foldl_cons]
    by_cases hpa : P a
    · rw [if_pos hpa, h a (by simp) hpa]
      exact foldl_pick_keep P v l (fun j hj hpj => h j (by simp [hj]) hpj)
    · rw [if_neg hpa]
      have hvl : v ∈ l := by
        rcases List.mem_cons.mp hv with h1 | h1
        · exact absurd hPv (h1 ▸ hpa)
        · exact h1
      exact ih acc hvl hPv (fun j hj hpj => h j (by simp [hj]) hpj)

theorem invTable_eq_INVAES (a : Nat) (ha : a < 256) (ha0 : a ≠ 0) :
    invTable 27 a = INVAES.getD a 0 := by
  unfold invTable
  refine foldl_pick_unique (fun j => 1 ≤ j ∧ gfMul 27 a j = 1) (INVAES.getD a 0)
    (List.range 256) 0 ?_ ?_ ?_
  · exact List.mem_range.mpr (invaes_lt a ha)
  · exact ⟨invaes_pos a ha ha0, invaes_mul a ha ha0⟩
  · intro j hj hpj
    exact gfMul_inv_unique a j ha ha0 (List.mem_range.mp hj) hpj.2

theorem trivPrims_wf : PrimsWF trivPrims := by
  refine ⟨fun x => rfl, fun x => ?_, fun x y => rfl, fun x y => ?_,
    fun x y => rfl, fun x y => ?_, fun x => rfl⟩ <;>
  · intro b hb
    rw [List.eq_of_mem_replicate hb]
    norm_num

theorem bytes_of_all (l : List Nat)
    (h : l.all (fun b => decide (b < 256)) = true) : Bytes l :=
  fun b hb => of_decide_eq_true (List.all_eq_true.mp h b hb)

/-- Claim C1 (corrected).  Round-trip: decrypting the output of `encrypt`
with the same password, nonce, config, salt and wrap flag recovers exactly
the original data — for non-empty data (the source rejects empty plaintext
at the MAC step), the AES construction polynomial (custom polynomials need
not be invertible), a Cpu device, and a derived key whose version decryption
does not accidentally carry the legacy `0x2` tag. -/
theorem claim_c1_round_trip (P : Prims) (hP : PrimsWF P) (password data : List Nat)
    (nonce : NonceData) (cfg : Config) (customSalt : Option Salt) (wrapAll : Bool)
    (hd : data ≠ []) (hdb : Bytes data)
    (hnlen : nonce.asBytes.length = 32) (hnb : Bytes nonce.asBytes)
    (hsalt : ∀ cs, customSalt = some cs → cs.asBytes.length = 32)
    (hdev : cfg.device = .Cpu) (hpoly : cfg.gfPoly.value = 27)
    (hv2 : hasPrefixB VERSION2bytes
      (xorDecryptBytes nonce.asBytes (pwdKey P password nonce.asBytes customSalt)
        (xorEncryptBytes nonce.asBytes (P.blake3 atomCryptePasswordBytes)
          VERSIONbytes)) = false) :
    ∃ blob, encrypt P password data nonce cfg customSalt wrapAll = .ok blob ∧
      decrypt P password blob (some nonce) cfg customSalt wrapAll = .ok data :=
  ⟨encBlob P password data nonce.asBytes cfg customSalt wrapAll,
   encrypt_ok P hP password data nonce cfg customSalt wrapAll hd hdev,
   decrypt_encBlob P hP password data nonce cfg customSalt wrapAll hd hdb hnlen
     hnb hsalt hdev hpoly hv2⟩

theorem claim_c1_round_trip_witness :
    ∃ blob, encrypt trivPrims [] [1, 2, 3] nd0 Config.defaultCfg none false = .ok blob ∧
      decrypt trivPrims [] blob (some nd0) Config.defaultCfg none false = .ok [1, 2, 3] :=
  claim_c1_round_trip trivPrims trivPrims_wf [] [1, 2, 3] nd0 Config.defaultCfg none
    false (by decide) (bytes_of_all _ (by decide)) (by decide)
    (bytes_of_all _ (by decide)) (fun cs h => by cases h) rfl rfl (by decide)

theorem claim_c1_round_trip_cex :
    encrypt trivPrims [] [] nd0 Config.defaultCfg none false =
      .error (.InvalidXor "Empty vector") := by
  rfl

/-- Claim C2 (code bug).  When no nonce is supplied, `decrypt` immediately
computes `data.split_at(data.len() - 32)`; on any blob shorter than 32 bytes
the subtraction underflows and the program panics instead of returning
`InvalidMac` or `InvalidAlgorithm` as the spec requires. -/
theorem claim_c2_truncated_blob (P : Prims) (password blob : List Nat)
    (cfg : Config) (customSalt : Option Salt) (wrapAll : Bool)
    (hlen : blob.length < 32) :
    decrypt P password blob none cfg customSalt wrapAll = .crashed := by
  unfold decrypt
  rw [if_pos hlen]

theorem claim_c2_truncated_blob_witness :
    decrypt trivPrims [] [] none Config.defaultCfg none true = .crashed :=
  claim_c2_truncated_blob trivPrims [] [] Config.defaultCfg none true (by decide)

/-- Claim C3 (confirmed).  The chunked shift is inverted exactly by the
chunked unshift: `dynamic_shift` concatenates the per-chunk rotate+XOR
results and reverses the whole sequence, `dynamic_unshift` reverses first,
recomputes the same schedule from the (equal) length, and applies XOR then
rotate-right per chunk, recovering every byte buffer. -/
theorem claim_c3_shift_unshift (P : Prims) (data nonceB key : List Nat)
    (cfg : Config) (hb : Bytes data) :
    (dynamicShift P data nonceB key cfg).bind
      (fun s => dynamicUnshift P s nonceB key cfg) = .ok data := by
  simp only [dynamicShift, dynamicUnshift, Outcome.bind]
  rw [dynamicUnshiftPure_dynamicShiftPure P data nonceB key hb]

theorem claim_c3_shift_unshift_witness :
    (dynamicShift trivPrims [1, 2, 3] nonce0 [] Config.defaultCfg).bind
      (fun s => dynamicUnshift trivPrims s nonce0 [] Config.defaultCfg) =
      .ok [1, 2, 3] :=
  claim_c3_shift_unshift trivPrims [1, 2, 3] nonce0 [] Config.defaultCfg
    (bytes_of_all _ (by decide))

/-- Claim C4 (corrected).  The encrypted byte is rotated left by
`n XOR (p mod 8)` exactly as the source's precedence dictates, and
`xor_decrypt` inverts it; but because `u8::rotate_left` reduces the amount
modulo 8 and `(n XOR (p mod 8)) mod 8 = (n XOR p) mod 8`, the rotation by
`(n XOR p) mod 8` is behaviourally identical — the claim's "not by
`(n XOR p) mod 8`" contrast is false. -/
theorem claim_c4_rotation (n p b : Nat) (hn : n < 256) (hp : p < 256)
    (hb : b < 256) :
    encByte n p b = wadd (wadd (rotl8 (b ^^^ (n ^^^ p)) (n ^^^ (p % 8))) p) n ∧
    rotl8 (b ^^^ (n ^^^ p)) (n ^^^ (p % 8)) =
      rotl8 (b ^^^ (n ^^^ p)) ((n ^^^ p) % 8) ∧
    decByte n p (encByte n p b) = b :=
  ⟨rfl, rotl8_amount_mod8 _ n p, decByte_encByte n p b hb hn hp⟩

theorem claim_c4_rotation_witness :
    encByte 8 1 1 = wadd (wadd (rotl8 (1 ^^^ (8 ^^^ 1)) (8 ^^^ (1 % 8))) 1) 8 ∧
    rotl8 (1 ^^^ (8 ^^^ 1)) (8 ^^^ (1 % 8)) = rotl8 (1 ^^^ (8 ^^^ 1)) ((8 ^^^ 1) % 8) ∧
    decByte 8 1 (encByte 8 1 1) = 1 :=
  claim_c4_rotation 8 1 1 (by decide) (by decide) (by decide)

theorem claim_c4_rotation_cex :
    encByte 8 1 1 = wadd (wadd (rotl8 (1 ^^^ (8 ^^^ 1)) ((8 ^^^ 1) % 8)) 1) 8 := by
  decide

/-- Claim C5 (corrected).  For the AES polynomial `0x1b` the derived inverse
table satisfies `inv[a] = b` iff `mul[a][b] = 1`, `inverse 0` is `none` for
every polynomial, and `mul[a][inverse a] = 1` for every nonzero byte `a`;
for an arbitrary construction polynomial the iff fails (see the
counterexample with polynomial 0). -/
theorem claim_c5_gf_inverse :
    (∀ a b, a < 256 → b < 256 → a ≠ 0 →
      (gfInverse 27 a = some b ↔ gfMul 27 a b = 1)) ∧
    (∀ poly, gfInverse poly 0 = none) ∧
    (∀ a, a < 256 → a ≠ 0 → gfMul 27 a ((gfInverse 27 a).getD 1) = 1) := by
  refine ⟨fun a b ha hb ha0 => ?_, fun poly => ?_, fun a ha ha0 => ?_⟩
  · constructor
    · intro h
      unfold gfInverse at h
      rw [if_neg ha0] at h
      have hb2 : b = invTable 27 a := (Option.some.injEq _ _).mp h.symm
      rw [hb2, invTable_eq_INVAES a ha ha0]
      exact invaes_mul a ha ha0
    · intro h
      have hb2 : b = INVAES.getD a 0 := gfMul_inv_unique a b ha ha0 hb h
      unfold gfInverse
      rw [if_neg ha0, invTable_eq_INVAES a ha ha0, hb2]
  · unfold gfInverse
    rw [if_pos rfl]
  · unfold gfInverse
    rw [if_neg ha0]
    simp only [Option.getD_some]
    rw [invTable_eq_INVAES a ha ha0]
    exact invaes_mul a ha ha0

theorem claim_c5_gf_inverse_witness :
    gfInverse 27 3 = some 246 ∧ gfMul 27 3 ((gfInverse 27 3).getD 1) = 1 :=
  ⟨(claim_c5_gf_inverse.1 3 246 (by decide) (by decide) (by decide)).mpr (by decide),
   claim_c5_gf_inverse.2.2 3 (by decide) (by decide)⟩

theorem claim_c5_gf_inverse_cex :
    gfInverse 0 4 = some 0 ∧ gfMul 0 4 0 ≠ 1 := by
  decide

/-- Claim C6 (corrected).  `mix_blocks` and `unmix_blocks` do NOT reject an
empty buffer: both return `Ok` of the empty vector; the empty-input error
the spec describes is raised by `xor_encrypt`/`xor_decrypt` instead. -/
theorem claim_c6_empty_input (P : Prims) (nonceB pwd : List Nat) (cfg : Config) :
    mixBlocks P [] nonceB pwd cfg = .ok [] ∧
    unmixBlocks P [] nonceB pwd cfg = .ok [] ∧
    xorEncrypt nonceB pwd [] = .error (.InvalidXor "Empty vector") ∧
    xorDecrypt nonceB pwd [] = .error (.InvalidXor "Empty vector") :=
  ⟨rfl, rfl, rfl, rfl⟩

theorem claim_c6_empty_input_cex :
    mixBlocks trivPrims [] nonce0 [] Config.defaultCfg = .ok [] := by
  rfl

/-- Claim C7 (confirmed).  With `wrap_all = true` and a provided 32-byte
salt, `encrypt` of non-empty data on the Cpu device returns a blob of length
exactly `32 + 16 + |data| + 64 + 32`: nonce prefix, encrypted version tag,
length-preserving body, SHA3-512 MAC, salt suffix. -/
theorem claim_c7_blob_length (P : Prims) (hP : PrimsWF P)
    (password data : List Nat) (nonce : NonceData) (cfg : Config) (cs : Salt)
    (hd : data ≠ []) (hnlen : nonce.asBytes.length = 32)
    (hcs : cs.asBytes.length = 32) (hdev : cfg.device = .Cpu) :
    ∃ blob, encrypt P password data nonce cfg (some cs) true = .ok blob ∧
      blob.length = 32 + 16 + data.length + 64 + 32 := by
  refine ⟨encBlob P password data nonce.asBytes cfg (some cs) true,
    encrypt_ok P hP password data nonce cfg (some cs) true hd hdev, ?_⟩
  rw [length_encBlob P hP password data nonce.asBytes cfg (some cs) true hnlen
    (fun c hc => by cases hc; exact hcs)]
  simp only [if_true]

theorem claim_c7_blob_length_witness :
    ∃ blob, encrypt trivPrims [] [1, 2, 3] nd0 Config.defaultCfg
        (some (Salt.salt nonce0)) true = .ok blob ∧
      blob.length = 32 + 16 + 3 + 64 + 32 :=
  claim_c7_blob_length trivPrims trivPrims_wf [] [1, 2, 3] nd0 Config.defaultCfg
    (Salt.salt nonce0) (by decide) rfl rfl rfl

/-- Claim C8 (confirmed).  The column mixer and its inverse transform only
the complete 3-byte groups: for every buffer and polynomial, the trailing
`|data| mod 3` bytes (indices at or above `3 * floor(|data| / 3)`) come back
unchanged from both transforms. -/
theorem claim_c8_triangle_frame (poly : Nat) (data : List Nat) :
    (triangleMixColumnsPure poly data).drop (3 * (data.length / 3)) =
      data.drop (3 * (data.length / 3)) ∧
    (inverseTriangleMixColumnsPure poly data).drop (3 * (data.length / 3)) =
      data.drop (3 * (data.length / 3)) :=
  ⟨triangle_drop_remainder poly data, inverse_triangle_drop_remainder poly data⟩

/-- Claim C9 (confirmed).  `Config::rounds` clamps values below 1 to 1 and
stores the value otherwise, and the encrypt round loop `0..=rounds` performs
exactly `rounds + 1` keyed-XOR passes (pass `i` keyed by the blake3 hash of
`pwd[..min(i*8, |pwd|)]`, as recorded in `encryptPassBytes`). -/
theorem claim_c9_rounds :
    (∀ (cfg : Config) (n : Nat),
      (cfg.roundsClamp n).rounds = if n < 1 then 1 else n) ∧
    (∀ (P : Prims) (pwd nonceB data : List Nat) (r : Nat),
      encryptRounds P pwd nonceB r data =
        .ok (encPasses P pwd nonceB (r + 1) 0 data)) := by
  refine ⟨fun cfg n => ?_, fun P pwd nonceB data r => ?_⟩
  · unfold Config.roundsClamp
    split
    · rfl
    · rfl
  · exact encryptRoundsGo_ok P pwd nonceB (r + 1) 0 data

/-- Claim C10 (confirmed).  Every chunk size produced by `get_chunk_sizes`
is at least 1, the sizes sum to exactly the data length, and the cursor walk
over that schedule consumes the whole buffer (the shift pass over the
schedule is defined on all of it and preserves its length). -/
theorem claim_c10_chunk_schedule (P : Prims) (L : Nat) (nonceB key : List Nat) :
    (∀ s ∈ getChunkSizes P L nonceB key, 1 ≤ s) ∧
    (getChunkSizes P L nonceB key).sum = L ∧
    (∀ d : List Nat, d.length = L →
      (shiftChunksGo nonceB key 0 (getChunkSizes P L nonceB key) d).length =
        d.length) :=
  ⟨getChunkSizes_pos P L nonceB key, getChunkSizes_sum P L nonceB key,
   fun d hd => length_shiftChunksGo nonceB key _ 0 d
     (by rw [getChunkSizes_sum, hd])⟩

theorem claim_c10_chunk_schedule_witness :
    1 ≤ 5 ∧ (getChunkSizes trivPrims 5 nonce0 []).sum = 5 ∧
    (shiftChunksGo nonce0 [] 0 (getChunkSizes trivPrims 5 nonce0 [])
      [9, 9, 9, 9, 9]).length = [9, 9, 9, 9, 9].length :=
  ⟨(claim_c10_chunk_schedule trivPrims 5 nonce0 []).1 5 (by decide),
   (claim_c10_chunk_schedule trivPrims 5 nonce0 []).2.1,
   (claim_c10_chunk_schedule trivPrims 5 nonce0 []).2.2 [9, 9, 9, 9, 9] rfl⟩
